import Mathlib

/-!
# Verification of the snarkVM round-2 prover, Import ordering, and LedgerProof construction

This development shallowly embeds three parts of the snarkVM repository:

* `AHPForR1CS::prover_second_round` and its helpers
  (`calculate_rowcheck_witness`, `calculate_z_m`) from
  `algorithms/src/snark/varuna/ahp/prover/round_functions/second.rs`.
  Dense polynomials are coefficient lists; the evaluation domain is the
  group of n-th roots of unity with its cached inverse generator and
  inverse size, exactly the data `EvaluationDomain` carries.  Components
  of the repository that are only called from here (IFFT interpolation,
  `PolyMultiplier`, `apply_randomized_selector`) are modelled from the
  specification, as marked on each definition.  Rust `Result::Err` values
  and panics (`assert!`, `unwrap`, map indexing) are distinguished by the
  `Outcome` type.
* the `Ord`/`PartialOrd` implementation of `Import` from
  `.vm/src/program/import/mod.rs`.
* `LedgerProof::new` from `dpc/src/ledger/ledger_proof.rs`.
-/

/-- Result of running a piece of Rust code: a value, a reported error
(`Result::Err` / `anyhow!` / `ensure!`), or a panic (`assert!`,
`debug_assert!`, `Option::unwrap`, `BTreeMap` indexing). -/
inductive Outcome (α : Type) where
  | ok : α → Outcome α
  | err : String → Outcome α
  | panic : String → Outcome α
deriving DecidableEq

namespace Outcome

def bind {α β : Type} : Outcome α → (α → Outcome β) → Outcome β
  | ok a, f => f a
  | err m, _ => err m
  | panic m, _ => panic m

instance : Monad Outcome where
  pure := ok
  bind := bind

/-- Whether the outcome is a panic. -/
def isPanic {α : Type} : Outcome α → Bool
  | panic _ => true
  | _ => false

/-- Whether the outcome is a reported error. -/
def isErr {α : Type} : Outcome α → Bool
  | err _ => true
  | _ => false

/-- The payload of a successful outcome. -/
def getOk? {α : Type} : Outcome α → Option α
  | ok a => some a
  | _ => none

end Outcome

/-! ## Dense polynomials as coefficient lists

`DensePolynomial` in snarkVM stores the list of coefficients from the
constant term up; constructors truncate trailing zero coefficients. -/

section Poly

variable {F : Type} [Field F] [DecidableEq F]

/-- A dense polynomial: the coefficient of `X^i` is the `i`-th entry. -/
abbrev DensePolynomial (F : Type) := List F

namespace DensePolynomial

/-- Coefficient-wise addition; the shorter summand is padded with zeros
(the length of the sum is the maximum of the two lengths, as for Rust's
`AddAssign` which resizes to the larger degree). -/
def add : DensePolynomial F → DensePolynomial F → DensePolynomial F
  | [], q => q
  | p, [] => p
  | a :: p, b :: q => (a + b) :: add p q

/-- Multiplication of a polynomial by a scalar, coefficient by coefficient. -/
def smul (c : F) (p : DensePolynomial F) : DensePolynomial F :=
  p.map (fun a => c * a)

/-- Naive convolution product.  Modelled from the spec: `PolyMultiplier`
multiplies dense polynomials by transforming to an evaluation domain,
pointwise multiplying and interpolating back, which computes exactly the
polynomial product; the FFT-based routine itself is not part of the
excerpted sources. -/
def mul : DensePolynomial F → DensePolynomial F → DensePolynomial F
  | [], _ => []
  | _, [] => []
  | a :: p, q => add (q.map (fun x => a * x)) ((0 : F) :: mul p q)

/-- The truncating in-place subtraction of `second.rs` line 108:
`rowcheck.coeffs` is mutated pointwise against `z_c.coeffs` under `zip`,
so coefficients of the subtrahend beyond the length of `p` are dropped
and coefficients of `p` beyond the subtrahend are kept unchanged. -/
def subTrunc (p q : DensePolynomial F) : DensePolynomial F :=
  (List.zipWith (fun a b => a - b) p q) ++ p.drop q.length

/-- Full coefficient-wise subtraction (padding the shorter list). -/
def sub (p q : DensePolynomial F) : DensePolynomial F :=
  add p (q.map (fun a => -a))

/-- Drop trailing zero coefficients, as `from_coefficients_vec` does. -/
def trim (p : DensePolynomial F) : DensePolynomial F :=
  (p.reverse.dropWhile (fun a => a = 0)).reverse

/-- Whether every stored coefficient is zero (the represented polynomial
is the zero polynomial). -/
def isZero (p : DensePolynomial F) : Bool :=
  p.all (fun a => a = 0)

/-- Horner evaluation of the polynomial at a point. -/
def eval (p : DensePolynomial F) (x : F) : F :=
  p.foldr (fun c acc => c + x * acc) (0 : F)

/-- `degree()` of a dense polynomial: the zero polynomial has degree 0,
otherwise the index of the highest nonzero coefficient. -/
def natDegree (p : DensePolynomial F) : ℕ :=
  (trim p).length - 1

end DensePolynomial

end Poly

/-! ## Evaluation domains and IFFT interpolation -/

section Domain

variable {F : Type} [Field F] [DecidableEq F]

/-- A radix-2 FFT evaluation domain: the multiplicative group of `n`-th
roots of unity generated by `group_gen`.  As in snarkVM the structure
caches the inverse generator and the inverse of the size. -/
structure EvaluationDomain (F : Type) where
  n : ℕ
  group_gen : F
  group_gen_inv : F
  size_inv : F
deriving DecidableEq

namespace EvaluationDomain

/-- A well-formed domain: nonempty, the cached inverses are genuine
inverses, and `group_gen` is a primitive `n`-th root of unity. -/
def valid (d : EvaluationDomain F) : Prop :=
  0 < d.n ∧ (d.n : F) * d.size_inv = 1 ∧ d.group_gen * d.group_gen_inv = 1 ∧
    d.group_gen ^ d.n = 1 ∧ ∀ k, k < d.n → 0 < k → d.group_gen ^ k ≠ 1

instance (d : EvaluationDomain F) : Decidable d.valid := by
  unfold valid; infer_instance

/-- The domain points `group_gen ^ 0, …, group_gen ^ (n-1)`. -/
def elements (d : EvaluationDomain F) : List F :=
  (List.range d.n).map (fun k => d.group_gen ^ k)

end EvaluationDomain

/-- Modelled from the spec: interpolation over an evaluation domain by
inverse FFT, which is not part of the excerpted sources
(`Evaluations::interpolate_with_pc_by_ref`).  The spec requires exact
interpolation of the value sequence over the domain; the inverse discrete
Fourier transform `c_i = n⁻¹ * Σ_j v_j * ω^(-i*j)` is that map, written
with the cached `group_gen_inv` and `size_inv`. -/
def rawInterpolate (v : List F) (d : EvaluationDomain F) : DensePolynomial F :=
  (List.range d.n).map (fun i =>
    d.size_inv * ((List.range d.n).map
      (fun j => v.getD j 0 * d.group_gen_inv ^ (i * j))).sum)

/-- Modelled from the spec: the interpolated dense polynomial, with
trailing zero coefficients truncated as `from_coefficients_vec` does. -/
def interpolate (v : List F) (d : EvaluationDomain F) : DensePolynomial F :=
  DensePolynomial.trim (rawInterpolate v d)

/-- Evaluation of a polynomial over every point of a domain
(`evaluate_over_domain_by_ref`). -/
def evalOverDomain (p : DensePolynomial F) (d : EvaluationDomain F) : List F :=
  (List.range d.n).map (fun k => p.eval (d.group_gen ^ k))

/-- Modelled from the spec: division with remainder by the vanishing
polynomial `X^n - 1` of a domain of size `n`
(`DensePolynomial::divide_by_vanishing_poly`, not among the excerpted
sources).  Writing `p = lo + X^n * hi`, we have
`p = hi * (X^n - 1) + (lo + hi)` and recurse on `lo + hi`; the
polynomial shrinks at every step, so a fuel of `p.length` suffices. -/
def divideByVanishingPolyAux : ℕ → DensePolynomial F → ℕ →
    DensePolynomial F × DensePolynomial F
  | 0, p, _ => ([], p)
  | fuel + 1, p, m =>
    if m = 0 ∨ p.length ≤ m then ([], p)
    else
      let hi := p.drop m
      let lo := p.take m
      let qr := divideByVanishingPolyAux fuel (DensePolynomial.add lo hi) m
      (DensePolynomial.add hi qr.1, qr.2)

/-- Division with remainder by `X^m - 1`. -/
def divideByVanishingPoly (p : DensePolynomial F) (m : ℕ) :
    DensePolynomial F × DensePolynomial F :=
  divideByVanishingPolyAux p.length p m

end Domain

/-! ## Basic lemmas about the polynomial operations -/

namespace DensePolynomial

variable {F : Type} [Field F] [DecidableEq F]

theorem add_length (p q : DensePolynomial F) :
    (add p q).length = max p.length q.length := by
  induction p generalizing q with
  | nil => cases q <;> simp [add]
  | cons a p ih =>
    cases q with
    | nil => simp [add]
    | cons b q => simp [add, ih]; omega

theorem add_nil (p : DensePolynomial F) : add p [] = p := by
  cases p <;> rfl

theorem eval_nil (x : F) : eval ([] : DensePolynomial F) x = 0 := rfl

theorem eval_cons (a : F) (p : DensePolynomial F) (x : F) :
    eval (a :: p) x = a + x * eval p x := rfl

theorem eval_add (p q : DensePolynomial F) (x : F) :
    eval (add p q) x = eval p x + eval q x := by
  induction p generalizing q with
  | nil => simp [add, eval_nil]
  | cons a p ih =>
    cases q with
    | nil => simp [add, eval_nil]
    | cons b q => simp only [add, eval_cons, ih]; ring

theorem eval_map_mul (c : F) (p : DensePolynomial F) (x : F) :
    eval (p.map (fun a => c * a)) x = c * eval p x := by
  induction p with
  | nil => simp [eval_nil]
  | cons a p ih => simp only [List.map_cons, eval_cons, ih]; ring

theorem eval_smul (c : F) (p : DensePolynomial F) (x : F) :
    eval (smul c p) x = c * eval p x := eval_map_mul c p x

theorem eval_mul (p q : DensePolynomial F) (x : F) :
    eval (mul p q) x = eval p x * eval q x := by
  induction p generalizing q with
  | nil => simp [mul, eval_nil]
  | cons a p ih =>
    cases q with
    | nil => simp [mul, eval_nil]
    | cons b q =>
      simp only [mul, eval_add, eval_cons, eval_map_mul, ih]
      ring

theorem eval_append (p q : DensePolynomial F) (x : F) :
    eval (p ++ q) x = eval p x + x ^ p.length * eval q x := by
  induction p with
  | nil => simp [eval_nil]
  | cons a p ih => simp only [List.cons_append, eval_cons, ih, List.length_cons]; ring

theorem eval_replicate_zero (k : ℕ) (x : F) :
    eval (List.replicate k (0 : F)) x = 0 := by
  induction k with
  | zero => rfl
  | succ k ih => simp [List.replicate_succ, eval_cons, ih]

theorem trim_append_replicate (p : DensePolynomial F) :
    ∃ k, p = trim p ++ List.replicate k (0 : F) := by
  induction p using List.reverseRecOn with
  | nil => exact ⟨0, rfl⟩
  | append_singleton p a ih =>
    by_cases ha : a = 0
    · obtain ⟨k, hk⟩ := ih
      have htrim : trim (p ++ [a]) = trim p := by
        unfold trim
        rw [List.reverse_append]
        simp [List.dropWhile_cons, ha]
      refine ⟨k + 1, ?_⟩
      rw [htrim, List.replicate_succ', ← List.append_assoc, ← hk, ha]
    · refine ⟨0, ?_⟩
      have htrim : trim (p ++ [a]) = p ++ [a] := by
        unfold trim
        rw [List.reverse_append]
        simp [List.dropWhile_cons, ha]
      rw [htrim]
      simp

theorem eval_trim (p : DensePolynomial F) (x : F) :
    eval (trim p) x = eval p x := by
  obtain ⟨k, hk⟩ := trim_append_replicate p
  conv_rhs => rw [hk]
  rw [eval_append, eval_replicate_zero]
  ring

theorem length_dropWhile_le (q : F → Bool) (l : List F) :
    (List.dropWhile q l).length ≤ l.length := by
  induction l with
  | nil => simp
  | cons a l ih =>
    rw [List.dropWhile_cons]
    split
    · exact le_trans ih (by simp)
    · simp

theorem trim_length_le (p : DensePolynomial F) : (trim p).length ≤ p.length := by
  unfold trim
  simpa using length_dropWhile_le (fun a => decide (a = 0)) p.reverse

theorem natDegree_le (p : DensePolynomial F) : natDegree p ≤ p.length - 1 := by
  unfold natDegree
  have := trim_length_le p
  omega

theorem isZero_iff (p : DensePolynomial F) :
    isZero p = true ↔ ∀ a ∈ p, a = 0 := by
  unfold isZero
  simp [List.all_eq_true]

theorem eval_of_isZero {p : DensePolynomial F} (h : isZero p = true) (x : F) :
    eval p x = 0 := by
  rw [isZero_iff] at h
  induction p with
  | nil => rfl
  | cons a q ih =>
    rw [eval_cons, h a (by simp), ih (fun b hb => h b (by simp [hb]))]
    ring

theorem isZero_add {p q : DensePolynomial F}
    (hp : isZero p = true) (hq : isZero q = true) : isZero (add p q) = true := by
  rw [isZero_iff] at hp hq ⊢
  induction p generalizing q with
  | nil => simpa [add] using hq
  | cons a p ih =>
    cases q with
    | nil => simpa [add] using hp
    | cons b q =>
      intro c hc
      simp only [add, List.mem_cons] at hc
      rcases hc with hc | hc
      · rw [hc, hp a (by simp), hq b (by simp)]; ring
      · exact ih (fun z hz => hp z (by simp [hz])) (fun z hz => hq z (by simp [hz])) c hc

theorem isZero_smul {p : DensePolynomial F} (c : F) (hp : isZero p = true) :
    isZero (smul c p) = true := by
  rw [isZero_iff] at hp ⊢
  intro a ha
  simp only [smul, List.mem_map] at ha
  obtain ⟨b, hb, rfl⟩ := ha
  rw [hp b hb]; ring

theorem mul_length_le (p q : DensePolynomial F) :
    (mul p q).length ≤ p.length + q.length - 1 := by
  induction p generalizing q with
  | nil => simp [mul]
  | cons a p ih =>
    cases q with
    | nil => simp [mul]
    | cons b q =>
      have h := ih (b :: q)
      simp only [mul, add_length, List.length_map, List.length_cons] at *
      omega

theorem subTrunc_length (p q : DensePolynomial F) :
    (subTrunc p q).length = p.length := by
  unfold subTrunc
  simp [List.length_zipWith]
  omega

theorem smul_length (c : F) (p : DensePolynomial F) :
    (smul c p).length = p.length := by
  simp [smul]

end DensePolynomial

/-! ## Exactness of IFFT interpolation over a valid domain -/

section Interp

variable {F : Type} [Field F] [DecidableEq F]

theorem eval_eq_sum (p : DensePolynomial F) (x : F) :
    DensePolynomial.eval p x = ∑ i in Finset.range p.length, p.getD i 0 * x ^ i := by
  induction p with
  | nil => simp [DensePolynomial.eval_nil]
  | cons a p ih =>
    rw [DensePolynomial.eval_cons, ih, List.length_cons, Finset.sum_range_succ']
    simp only [List.getD_cons_succ, List.getD_cons_zero, pow_zero, mul_one, pow_succ,
      Finset.mul_sum]
    rw [add_comm]
    congr 1
    exact Finset.sum_congr rfl (fun i _ => by ring)

theorem getD_map_range (f : ℕ → F) {n i : ℕ} (hi : i < n) :
    ((List.range n).map f).getD i 0 = f i := by
  rw [List.getD_eq_getElem?_getD, List.getElem?_map, List.getElem?_range hi]
  rfl

theorem list_sum_map_range (f : ℕ → F) (n : ℕ) :
    ((List.range n).map f).sum = ∑ i in Finset.range n, f i := by
  induction n with
  | zero => simp
  | succ n ih =>
    rw [List.range_succ, Finset.sum_range_succ, List.map_append, List.sum_append, ih]
    simp

namespace EvaluationDomain

theorem valid_pow_eq_one_iff {d : EvaluationDomain F} (hd : d.valid) (m : ℕ) :
    d.group_gen ^ m = 1 ↔ d.n ∣ m := by
  obtain ⟨hn, _, _, hpow, hprim⟩ := hd
  constructor
  · intro h
    have hm : m = d.n * (m / d.n) + m % d.n := (Nat.div_add_mod m d.n).symm
    have hr : d.group_gen ^ (m % d.n) = 1 := by
      have hsplit : d.group_gen ^ m =
          (d.group_gen ^ d.n) ^ (m / d.n) * d.group_gen ^ (m % d.n) := by
        rw [← pow_mul, ← pow_add, ← hm]
      rw [hsplit, hpow, one_pow, one_mul] at h
      exact h
    have hlt : m % d.n < d.n := Nat.mod_lt _ hn
    by_cases hz : m % d.n = 0
    · exact Nat.dvd_of_mod_eq_zero hz
    · exact absurd hr (hprim _ hlt (Nat.pos_of_ne_zero hz))
  · rintro ⟨c, rfl⟩
    rw [pow_mul, hpow, one_pow]

theorem group_gen_inv_eq {d : EvaluationDomain F} (hd : d.valid) :
    d.group_gen_inv = d.group_gen ^ (d.n - 1) := by
  obtain ⟨hn, _, hinv, hpow, _⟩ := hd
  have hsucc : d.n - 1 + 1 = d.n := Nat.succ_pred_eq_of_pos hn
  have h1 : d.group_gen ^ d.n = d.group_gen * d.group_gen ^ (d.n - 1) := by
    calc d.group_gen ^ d.n = d.group_gen ^ (d.n - 1 + 1) := by rw [hsucc]
      _ = d.group_gen ^ (d.n - 1) * d.group_gen := pow_succ _ _
      _ = d.group_gen * d.group_gen ^ (d.n - 1) := mul_comm _ _
  calc d.group_gen_inv = d.group_gen_inv * d.group_gen ^ d.n := by rw [hpow, mul_one]
    _ = (d.group_gen_inv * d.group_gen) * d.group_gen ^ (d.n - 1) := by rw [h1]; ring
    _ = d.group_gen ^ (d.n - 1) := by rw [mul_comm d.group_gen_inv d.group_gen, hinv, one_mul]

theorem sum_pow_orthogonal {d : EvaluationDomain F} (hd : d.valid)
    {j k : ℕ} (hj : j < d.n) (hk : k < d.n) :
    ∑ i in Finset.range d.n, (d.group_gen ^ k * d.group_gen_inv ^ j) ^ i =
      if j = k then (d.n : F) else 0 := by
  by_cases hjk : j = k
  · subst hjk
    have h1 : d.group_gen ^ j * d.group_gen_inv ^ j = 1 := by
      rw [← mul_pow, hd.2.2.1, one_pow]
    simp [h1]
  · have hginv := group_gen_inv_eq hd
    have hu : d.group_gen ^ k * d.group_gen_inv ^ j =
        d.group_gen ^ (k + (d.n - 1) * j) := by
      rw [hginv, ← pow_mul, ← pow_add]
    have hun : (d.group_gen ^ k * d.group_gen_inv ^ j) ^ d.n = 1 := by
      rw [hu, ← pow_mul, valid_pow_eq_one_iff hd]
      exact dvd_mul_left d.n (k + (d.n - 1) * j)
    have hu1 : d.group_gen ^ k * d.group_gen_inv ^ j ≠ 1 := by
      intro h1
      rw [hu, valid_pow_eq_one_iff hd] at h1
      have hn : 0 < d.n := hd.1
      have h3 : k + (d.n - 1) * j + j = k + d.n * j := by
        have hsucc : d.n - 1 + 1 = d.n := Nat.succ_pred_eq_of_pos hn
        have : (d.n - 1) * j + j = (d.n - 1 + 1) * j := by ring
        rw [hsucc] at this
        omega
      have h2 : (k + d.n * j) % d.n = (0 + j) % d.n := by
        have hmodeq := Nat.ModEq.add_right j ((Nat.modEq_zero_iff_dvd).mpr h1)
        rw [h3] at hmodeq
        exact hmodeq
      rw [Nat.zero_add, Nat.add_mul_mod_self_left,
        Nat.mod_eq_of_lt hk, Nat.mod_eq_of_lt hj] at h2
      exact hjk h2.symm
    have hgeom := geom_sum_mul (d.group_gen ^ k * d.group_gen_inv ^ j) d.n
    rw [hun, sub_self] at hgeom
    rcases mul_eq_zero.mp hgeom with h | h
    · simp [hjk, h]
    · exact absurd (by linear_combination h) hu1

end EvaluationDomain

end Interp

section RoundTrip

variable {F : Type} [Field F] [DecidableEq F]

theorem rawInterpolate_length (v : List F) (d : EvaluationDomain F) :
    (rawInterpolate v d).length = d.n := by
  simp [rawInterpolate]

theorem interpolate_length_le (v : List F) (d : EvaluationDomain F) :
    (interpolate v d).length ≤ d.n := by
  unfold interpolate
  calc (DensePolynomial.trim (rawInterpolate v d)).length
      ≤ (rawInterpolate v d).length := DensePolynomial.trim_length_le _
    _ = d.n := rawInterpolate_length v d

theorem eval_rawInterpolate {d : EvaluationDomain F} (hd : d.valid)
    (v : List F) {k : ℕ} (hk : k < d.n) :
    DensePolynomial.eval (rawInterpolate v d) (d.group_gen ^ k) = v.getD k 0 := by
  rw [eval_eq_sum, rawInterpolate_length]
  have hco : ∀ i ∈ Finset.range d.n,
      (rawInterpolate v d).getD i 0 * (d.group_gen ^ k) ^ i =
      ∑ j in Finset.range d.n,
        d.size_inv * (v.getD j 0 * (d.group_gen ^ k * d.group_gen_inv ^ j) ^ i) := by
    intro i hi
    rw [Finset.mem_range] at hi
    show (rawInterpolate v d).getD i 0 * (d.group_gen ^ k) ^ i = _
    unfold rawInterpolate
    rw [getD_map_range _ hi, list_sum_map_range, Finset.mul_sum, Finset.sum_mul]
    refine Finset.sum_congr rfl (fun j _ => ?_)
    simp only [mul_pow, ← pow_mul]
    ring
  calc ∑ i in Finset.range d.n, (rawInterpolate v d).getD i 0 * (d.group_gen ^ k) ^ i
      = ∑ i in Finset.range d.n, ∑ j in Finset.range d.n,
          d.size_inv * (v.getD j 0 * (d.group_gen ^ k * d.group_gen_inv ^ j) ^ i) :=
        Finset.sum_congr rfl hco
    _ = ∑ j in Finset.range d.n, ∑ i in Finset.range d.n,
          d.size_inv * (v.getD j 0 * (d.group_gen ^ k * d.group_gen_inv ^ j) ^ i) :=
        Finset.sum_comm
    _ = ∑ j in Finset.range d.n, d.size_inv * (v.getD j 0 *
          ∑ i in Finset.range d.n, (d.group_gen ^ k * d.group_gen_inv ^ j) ^ i) := by
        refine Finset.sum_congr rfl (fun j _ => ?_)
        rw [Finset.mul_sum, Finset.mul_sum]
    _ = ∑ j in Finset.range d.n,
          (if j = k then d.size_inv * (v.getD j 0 * (d.n : F)) else 0) := by
        refine Finset.sum_congr rfl (fun j hj => ?_)
        rw [Finset.mem_range] at hj
        rw [EvaluationDomain.sum_pow_orthogonal hd hj hk]
        by_cases h : j = k <;> simp [h]
    _ = d.size_inv * (v.getD k 0 * (d.n : F)) := by
        rw [Finset.sum_ite_eq' (Finset.range d.n) k
          (fun j => d.size_inv * (v.getD j 0 * (d.n : F)))]
        simp [hk]
    _ = v.getD k 0 := by
        have hsz := hd.2.1
        linear_combination v.getD k 0 * hsz

theorem eval_interpolate {d : EvaluationDomain F} (hd : d.valid)
    (v : List F) {k : ℕ} (hk : k < d.n) :
    DensePolynomial.eval (interpolate v d) (d.group_gen ^ k) = v.getD k 0 := by
  unfold interpolate
  rw [DensePolynomial.eval_trim]
  exact eval_rawInterpolate hd v hk

theorem evalOverDomain_interpolate {d : EvaluationDomain F} (hd : d.valid)
    {v : List F} (hv : v.length = d.n) :
    evalOverDomain (interpolate v d) d = v := by
  unfold evalOverDomain
  refine List.ext_getElem (by simp [hv]) (fun i h1 h2 => ?_)
  rw [List.getElem_map, List.getElem_range]
  have hi : i < d.n := by simpa using h1
  rw [eval_interpolate hd v hi, List.getD_eq_getElem?_getD,
    List.getElem?_eq_getElem h2]
  rfl

end RoundTrip

/-! ## Properties of division by the vanishing polynomial -/

section DivVanish

variable {F : Type} [Field F] [DecidableEq F]

theorem add_length' (p q : DensePolynomial F) :
    (DensePolynomial.add p q).length = max p.length q.length :=
  DensePolynomial.add_length p q

theorem divideByVanishingPolyAux_rem_length :
    ∀ (fuel : ℕ) (p : DensePolynomial F) (m : ℕ), 0 < m → p.length ≤ fuel →
      (divideByVanishingPolyAux fuel p m).2.length ≤ m := by
  intro fuel
  induction fuel with
  | zero =>
    intro p m hm hf
    show p.length ≤ m
    omega
  | succ fuel ih =>
    intro p m hm hf
    rw [divideByVanishingPolyAux]
    split
    · next h =>
      show p.length ≤ m
      rcases h with h | h
      · omega
      · exact h
    · next h =>
      simp only [not_or, not_le] at h
      refine ih _ m hm ?_
      rw [add_length', List.length_take, List.length_drop]
      omega

theorem divideByVanishingPoly_rem_length :
    ∀ (p : DensePolynomial F) (m : ℕ), 0 < m →
      (divideByVanishingPoly p m).2.length ≤ m := by
  intro p m hm
  exact divideByVanishingPolyAux_rem_length p.length p m hm (le_refl _)

theorem divideByVanishingPolyAux_quot_length :
    ∀ (fuel : ℕ) (p : DensePolynomial F) (m : ℕ), p.length ≤ fuel →
      (divideByVanishingPolyAux fuel p m).1.length ≤ p.length - m := by
  intro fuel
  induction fuel with
  | zero =>
    intro p m hf
    show (0 : ℕ) ≤ p.length - m
    omega
  | succ fuel ih =>
    intro p m hf
    rw [divideByVanishingPolyAux]
    split
    · next h =>
      show (0 : ℕ) ≤ p.length - m
      omega
    · next h =>
      simp only [not_or, not_le] at h
      have hrec := ih (DensePolynomial.add (p.take m) (p.drop m)) m
        (by rw [add_length', List.length_take, List.length_drop]; omega)
      rw [add_length', List.length_take, List.length_drop] at hrec
      show (DensePolynomial.add (p.drop m) _).length ≤ p.length - m
      rw [add_length', List.length_drop]
      omega

theorem divideByVanishingPoly_quot_length :
    ∀ (p : DensePolynomial F) (m : ℕ),
      (divideByVanishingPoly p m).1.length ≤ p.length - m := by
  intro p m
  exact divideByVanishingPolyAux_quot_length p.length p m (le_refl _)

theorem divideByVanishingPolyAux_eval (x : F) :
    ∀ (fuel : ℕ) (p : DensePolynomial F) (m : ℕ), 0 < m → p.length ≤ fuel →
      DensePolynomial.eval p x =
        DensePolynomial.eval (divideByVanishingPolyAux fuel p m).1 x *
          (x ^ m - 1) +
        DensePolynomial.eval (divideByVanishingPolyAux fuel p m).2 x := by
  intro fuel
  induction fuel with
  | zero =>
    intro p m hm hf
    show DensePolynomial.eval p x =
      DensePolynomial.eval [] x * (x ^ m - 1) + DensePolynomial.eval p x
    rw [DensePolynomial.eval_nil]
    ring
  | succ fuel ih =>
    intro p m hm hf
    rw [divideByVanishingPolyAux]
    split
    · next h =>
      show DensePolynomial.eval p x =
        DensePolynomial.eval [] x * (x ^ m - 1) + DensePolynomial.eval p x
      rw [DensePolynomial.eval_nil]
      ring
    · next h =>
      simp only [not_or, not_le] at h
      have hlo : (p.take m).length = m := by
        rw [List.length_take]; omega
      have hrec := ih (DensePolynomial.add (p.take m) (p.drop m)) m hm
        (by rw [add_length', List.length_take, List.length_drop]; omega)
      rw [DensePolynomial.eval_add] at hrec
      show DensePolynomial.eval p x =
        DensePolynomial.eval (DensePolynomial.add (p.drop m) _) x *
          (x ^ m - 1) + _
      rw [DensePolynomial.eval_add]
      have hp : p = p.take m ++ p.drop m := (List.take_append_drop m p).symm
      conv_lhs => rw [hp]
      rw [DensePolynomial.eval_append, hlo]
      linear_combination hrec

theorem divideByVanishingPoly_eval (x : F) :
    ∀ (p : DensePolynomial F) (m : ℕ), 0 < m →
      DensePolynomial.eval p x =
        DensePolynomial.eval (divideByVanishingPoly p m).1 x * (x ^ m - 1) +
        DensePolynomial.eval (divideByVanishingPoly p m).2 x := by
  intro p m hm
  exact divideByVanishingPolyAux_eval x p.length p m hm (le_refl _)

theorem divideByVanishingPolyAux_isZero :
    ∀ (fuel : ℕ) (p : DensePolynomial F) (m : ℕ),
      DensePolynomial.isZero p = true →
      DensePolynomial.isZero (divideByVanishingPolyAux fuel p m).1 = true ∧
      DensePolynomial.isZero (divideByVanishingPolyAux fuel p m).2 = true := by
  intro fuel
  induction fuel with
  | zero =>
    intro p m hz
    exact ⟨rfl, hz⟩
  | succ fuel ih =>
    intro p m hz
    rw [divideByVanishingPolyAux]
    split
    · exact ⟨rfl, hz⟩
    · rw [DensePolynomial.isZero_iff] at hz
      have htake : DensePolynomial.isZero (p.take m) = true := by
        rw [DensePolynomial.isZero_iff]
        exact fun a ha => hz a (List.mem_of_mem_take ha)
      have hdrop : DensePolynomial.isZero (p.drop m) = true := by
        rw [DensePolynomial.isZero_iff]
        exact fun a ha => hz a (List.mem_of_mem_drop ha)
      have hrec := ih (DensePolynomial.add (p.take m) (p.drop m)) m
        (DensePolynomial.isZero_add htake hdrop)
      exact ⟨DensePolynomial.isZero_add hdrop hrec.1, hrec.2⟩

theorem divideByVanishingPoly_isZero :
    ∀ (p : DensePolynomial F) (m : ℕ), DensePolynomial.isZero p = true →
      DensePolynomial.isZero (divideByVanishingPoly p m).1 = true ∧
      DensePolynomial.isZero (divideByVanishingPoly p m).2 = true := by
  intro p m hz
  exact divideByVanishingPolyAux_isZero p.length p m hz

end DivVanish


/-! ## The round-2 prover pipeline (`second.rs`) -/

section RoundTwo

variable {F : Type} [Field F] [DecidableEq F]

/-- A preprocessed circuit as round 2 sees it: its identifier and its
cached IFFT precomputation, modelled by the interpolation map the
precomputation tables induce (`calculate_z_m` interpolates with
`circuit.ifft_precomputation`; an honest circuit carries `interpolate`). -/
structure Circuit (F : Type) where
  id : ℕ
  ifft_precomputation : List F → EvaluationDomain F → DensePolynomial F

/-- The per-circuit prover state consumed by round 2: the constraint
domain and the per-instance witness value sequences, each held in an
`Option` so that it can be `take`n exactly once. -/
structure CircuitSpecificState (F : Type) where
  constraint_domain : EvaluationDomain F
  z_a : Option (List (List F))
  z_b : Option (List (List F))
  z_c : Option (List (List F))

/-- The prover state threaded through the rounds, restricted to the
fields round 2 reads. -/
structure ProverState (F : Type) where
  max_constraint_domain : EvaluationDomain F
  circuit_specific_states : List (Circuit F × CircuitSpecificState F)

/-- Verifier-chosen combiners for one circuit. -/
structure BatchCombiners (F : Type) where
  circuit_combiner : F
  instance_combiners : List F

/-- The verifier's first message: a map from circuit id to combiners
(`BTreeMap` modelled as an association list). -/
structure FirstMessage (F : Type) where
  batch_combiners : List (ℕ × BatchCombiners F)

/-- Association-list lookup standing for `BTreeMap::get`. -/
def lookupCombiners (bc : List (ℕ × BatchCombiners F)) (i : ℕ) :
    Option (BatchCombiners F) :=
  (bc.find? (fun p => p.1 == i)).map Prod.snd

/-- The comparison performed by the `debug_assert!` of `second.rs` lines
152–161: re-evaluate the interpolated polynomial over the domain and
compare with the source values under a truncating `zip`. -/
def interpolationChecks (poly : DensePolynomial F) (d : EvaluationDomain F)
    (evaluations : List F) : Bool :=
  ((evalOverDomain poly d).zip evaluations).all (fun p => p.2 == p.1)

/-- `AHPForR1CS::calculate_z_m` (`second.rs` lines 140–166): interpolate
the evaluations over the constraint domain with the circuit's IFFT
precomputation; under debug assertions, re-evaluating must reproduce the
source values or the function panics.  `debug_assertions` is true exactly
in builds where `debug_assert!` is compiled in. -/
def calculate_z_m (debug_assertions : Bool) (evaluations : List F)
    (constraint_domain : EvaluationDomain F) (circuit : Circuit F) :
    Outcome (DensePolynomial F) :=
  let poly := circuit.ifft_precomputation evaluations constraint_domain
  if debug_assertions && !(interpolationChecks poly constraint_domain evaluations)
  then Outcome.panic "interpolation mismatch"
  else Outcome.ok poly

/-- Modelled from the spec (§4.3): `selectors::apply_randomized_selector`
is not among the excerpted sources.  It divides the polynomial by the
vanishing polynomial of the source domain, producing a quotient scaled by
`combiner * (src.size() / target.size())`; when called with
`remainder_witness = false` a nonzero remainder is reported as an error
(`UnexpectedRemainder`), otherwise the remainder is witnessed. -/
def apply_randomized_selector (poly : DensePolynomial F) (combiner : F)
    (target_domain src_domain : EvaluationDomain F) (remainder_witness : Bool) :
    Outcome (DensePolynomial F × Option (DensePolynomial F)) :=
  let qr := divideByVanishingPoly poly src_domain.n
  let multiplier := combiner * (src_domain.n : F) * target_domain.size_inv
  if remainder_witness then
    Outcome.ok (DensePolynomial.smul multiplier qr.1, some qr.2)
  else
    if DensePolynomial.isZero qr.2 then
      Outcome.ok (DensePolynomial.smul multiplier qr.1, none)
    else Outcome.err "Remainder is not zero"

/-- The body of one per-instance job queued by
`calculate_rowcheck_witness` (`second.rs` lines 95–121): interpolate the
three witness columns, multiply `z_a * z_b`, subtract `z_c` under the
truncating `zip`, scale by the instance combiner, and apply the
randomized selector expecting no remainder (`assert!(remainder.is_none())`). -/
def rowcheckJob (debug_assertions : Bool) (circuit : Circuit F)
    (constraint_domain max_constraint_domain : EvaluationDomain F)
    (circuit_combiner instance_combiner : F) (za zb zc : List F) :
    Outcome (DensePolynomial F) :=
  Outcome.bind (calculate_z_m debug_assertions za constraint_domain circuit) (fun z_a =>
  Outcome.bind (calculate_z_m debug_assertions zb constraint_domain circuit) (fun z_b =>
  Outcome.bind (calculate_z_m debug_assertions zc constraint_domain circuit) (fun z_c =>
    let rowcheck := DensePolynomial.subTrunc (DensePolynomial.mul z_a z_b) z_c
    let instance_lhs := DensePolynomial.add []
      (DensePolynomial.smul instance_combiner rowcheck)
    Outcome.bind (apply_randomized_selector instance_lhs circuit_combiner
        max_constraint_domain constraint_domain false) (fun hr =>
      match hr with
      | (_, some _) => Outcome.panic "assertion failed: remainder is_none"
      | (h_0_i, none) => Outcome.ok h_0_i))))

/-- Truncating four-way zip, as `itertools::izip!`. -/
def zip4 {α β γ δ : Type} : List α → List β → List γ → List δ → List (α × β × γ × δ)
  | a :: as, b :: bs, c :: cs, d :: ds => (a, b, c, d) :: zip4 as bs cs ds
  | _, _, _, _ => []

/-- The jobs queued for the instances of one circuit. -/
def circuitJobs (debug_assertions : Bool)
    (max_constraint_domain : EvaluationDomain F) (circuit : Circuit F)
    (constraint_domain : EvaluationDomain F) (circuit_combiner : F)
    (instance_combiners : List F) (za zb zc : List (List F)) :
    List (Outcome (DensePolynomial F)) :=
  (zip4 instance_combiners za zb zc).map (fun t =>
    rowcheckJob debug_assertions circuit constraint_domain
      max_constraint_domain circuit_combiner t.1 t.2.1 t.2.2.1 t.2.2.2)

/-- The job-building loop of `calculate_rowcheck_witness` (`second.rs`
lines 79–123): for each circuit, `take().unwrap()` the three witness
columns (panicking when absent), index the combiner map (panicking when
the key is missing), and queue one job per instance. -/
def buildJobs (debug_assertions : Bool)
    (max_constraint_domain : EvaluationDomain F)
    (batch_combiners : List (ℕ × BatchCombiners F)) :
    List (Circuit F × CircuitSpecificState F) →
      Outcome (List (Outcome (DensePolynomial F)))
  | [] => Outcome.ok []
  | (circuit, cs) :: rest =>
    match cs.z_a, cs.z_b, cs.z_c with
    | some z_a, some z_b, some z_c =>
      match lookupCombiners batch_combiners circuit.id with
      | some combiners =>
        Outcome.bind
          (buildJobs debug_assertions max_constraint_domain batch_combiners rest)
          (fun jobs => Outcome.ok
            (circuitJobs debug_assertions max_constraint_domain circuit
              cs.constraint_domain combiners.circuit_combiner
              combiners.instance_combiners z_a z_b z_c ++ jobs))
      | none => Outcome.panic "no entry found for key"
    | _, _, _ => Outcome.panic "called Option unwrap on a None value"

/-- One step of the `cfg_reduce!` fold of `second.rs` lines 126–134:
`a.and_then(.. b.map(.. b += a ..))`, with a panicking job aborting the
whole reduction. -/
def reduceOp : Outcome (DensePolynomial F) → Outcome (DensePolynomial F) →
    Outcome (DensePolynomial F)
  | Outcome.panic m, _ => Outcome.panic m
  | _, Outcome.panic m => Outcome.panic m
  | Outcome.err m, _ => Outcome.err m
  | _, Outcome.err m => Outcome.err m
  | Outcome.ok a, Outcome.ok b => Outcome.ok (DensePolynomial.add b a)

/-- The `cfg_reduce!` fold itself: polynomial addition starting from the
zero polynomial, propagating reported errors. -/
def reduceJobs (results : List (Outcome (DensePolynomial F))) :
    Outcome (DensePolynomial F) :=
  results.foldl reduceOp (Outcome.ok [])

/-- `AHPForR1CS::calculate_rowcheck_witness` (`second.rs` lines 72–138). -/
def calculate_rowcheck_witness (debug_assertions : Bool) (state : ProverState F)
    (batch_combiners : List (ℕ × BatchCombiners F)) :
    Outcome (DensePolynomial F × ProverState F) :=
  Outcome.bind (buildJobs debug_assertions state.max_constraint_domain
      batch_combiners state.circuit_specific_states) (fun jobs =>
  Outcome.bind (reduceJobs jobs) (fun h_sum =>
    Outcome.ok (h_sum,
      { state with circuit_specific_states :=
          state.circuit_specific_states.map (fun p =>
            (p.1, { p.2 with z_a := none, z_b := none, z_c := none })) })))

/-- The degree/hiding information published for one oracle. -/
structure PolynomialInfo where
  label : String
  degree_bound : Option ℕ
  hiding_bound : Option ℕ
deriving DecidableEq

/-- A labelled dense polynomial. -/
structure LabeledPolynomial (F : Type) where
  label : String
  polynomial : DensePolynomial F
  degree_bound : Option ℕ
  hiding_bound : Option ℕ

/-- The single oracle of the second round. -/
structure SecondOracles (F : Type) where
  h_0 : LabeledPolynomial F

/-- `second_round_polynomial_info`: one entry, label `h_0`, no degree
bound, no hiding bound. -/
def second_round_polynomial_info : List PolynomialInfo :=
  [⟨"h_0", none, none⟩]

/-- `oracles.matches_info(...)`: the oracle bundle agrees with the
published info table. -/
def matchesInfo (o : SecondOracles F) (info : List PolynomialInfo) : Bool :=
  info == [⟨o.h_0.label, o.h_0.degree_bound, o.h_0.hiding_bound⟩]

/-- `AHPForR1CS::prover_second_round` (`second.rs` lines 47–70).
`zk_bound` is `Self::zk_bound()`: `some 1` in hiding mode, `none`
otherwise; the degree-bound `assert!` and the `matches_info` `assert!`
panic when violated. -/
def prover_second_round (debug_assertions : Bool) (zk_bound : Option ℕ)
    (verifier_message : FirstMessage F) (state : ProverState F) :
    Outcome (SecondOracles F × ProverState F) :=
  Outcome.bind (calculate_rowcheck_witness debug_assertions state
      verifier_message.batch_combiners) (fun r =>
    let h_0 := r.1
    let state1 := r.2
    if DensePolynomial.natDegree h_0 ≤
        2 * state.max_constraint_domain.n + 2 * zk_bound.getD 0 - 2 then
      let oracles : SecondOracles F := ⟨⟨"h_0", h_0, none, none⟩⟩
      if matchesInfo oracles second_round_polynomial_info then
        Outcome.ok (oracles, state1)
      else Outcome.panic "assertion failed: matches_info"
    else Outcome.panic "assertion failed: degree bound")

/-- The per-instance rowcheck polynomial as round 2 computes it: the
product of the `z_a` and `z_b` interpolants minus the `z_c` interpolant
under the truncating `zip` subtraction. -/
def instanceRowcheck (circuit : Circuit F) (d : EvaluationDomain F)
    (za zb zc : List F) : DensePolynomial F :=
  DensePolynomial.subTrunc
    (DensePolynomial.mul (circuit.ifft_precomputation za d)
      (circuit.ifft_precomputation zb d))
    (circuit.ifft_precomputation zc d)

/-- Whether a witness triple satisfies its R1CS rowcheck pointwise:
`z_a[j] * z_b[j] = z_c[j]` for every position. -/
def satisfiesR1CS (za zb zc : List F) : Bool :=
  ((za.zip zb).zip zc).all (fun t => t.1.1 * t.1.2 == t.2)

end RoundTwo

/-! ## Lemmas about the round-2 pipeline -/

section PipelineLemmas

variable {F : Type} [Field F] [DecidableEq F]

theorem Outcome.bind_eq_ok {α β : Type} {x : Outcome α} {f : α → Outcome β}
    {b : β} : Outcome.bind x f = Outcome.ok b ↔ ∃ a, x = Outcome.ok a ∧ f a = Outcome.ok b := by
  cases x <;> simp [Outcome.bind]

theorem mem_zip_self {α : Type} {l : List α} {p : α × α} (h : p ∈ l.zip l) :
    p.1 = p.2 := by
  induction l with
  | nil => simp [List.zip_nil_left] at h
  | cons a l ih =>
    rw [List.zip_cons_cons, List.mem_cons] at h
    rcases h with h | h
    · rw [h]
    · exact ih h

/-- Over a valid domain, an honestly interpolated polynomial passes the
re-evaluation comparison. -/
theorem interpolationChecks_interpolate {d : EvaluationDomain F} (hd : d.valid)
    {v : List F} (hv : v.length = d.n) :
    interpolationChecks (interpolate v d) d v = true := by
  unfold interpolationChecks
  rw [evalOverDomain_interpolate hd hv, List.all_eq_true]
  intro p hp
  have := mem_zip_self hp
  simp [this]

/-- `calculate_z_m` on an honest circuit over a valid domain returns the
interpolant (in particular the `debug_assert!` cannot fire). -/
theorem calculate_z_m_ok {c : Circuit F}
    (hc : c.ifft_precomputation = fun w dd => interpolate w dd)
    {d : EvaluationDomain F} (hd : d.valid) {v : List F} (hv : v.length = d.n)
    (debug : Bool) :
    calculate_z_m debug v d c = Outcome.ok (interpolate v d) := by
  unfold calculate_z_m
  rw [hc]
  simp [interpolationChecks_interpolate hd hv]

/-- `calculate_z_m` either panics on the debug mismatch or returns the
circuit's interpolation output. -/
theorem calculate_z_m_cases (debug : Bool) (v : List F)
    (d : EvaluationDomain F) (c : Circuit F) :
    calculate_z_m debug v d c = Outcome.panic "interpolation mismatch" ∨
    calculate_z_m debug v d c = Outcome.ok (c.ifft_precomputation v d) := by
  unfold calculate_z_m
  by_cases h : (debug && !interpolationChecks (c.ifft_precomputation v d) d v) = true
  · left; simp [h]
  · right; simp [h]

theorem nil_add (q : DensePolynomial F) : DensePolynomial.add [] q = q := by
  cases q <;> rfl

/-- `apply_randomized_selector` with `remainder_witness = false`: scaled
quotient when the remainder vanishes, a reported error otherwise. -/
theorem apply_randomized_selector_false (poly : DensePolynomial F) (combiner : F)
    (target src : EvaluationDomain F) :
    apply_randomized_selector poly combiner target src false =
      (if DensePolynomial.isZero (divideByVanishingPoly poly src.n).2 = true then
        Outcome.ok (DensePolynomial.smul (combiner * (src.n : F) * target.size_inv)
          (divideByVanishingPoly poly src.n).1, none)
      else Outcome.err "Remainder is not zero") := by
  unfold apply_randomized_selector
  simp only [Bool.false_eq_true, if_false]

/-- Unfolding of a job under honest interpolation: the selector is applied
to the combiner-scaled rowcheck; its outcome is an error exactly when the
remainder of the division by the vanishing polynomial is nonzero. -/
theorem rowcheckJob_eq_of_honest {c : Circuit F}
    (hc : c.ifft_precomputation = fun w dd => interpolate w dd)
    {d : EvaluationDomain F} (hd : d.valid) (maxCd : EvaluationDomain F)
    (cc ic : F) {za zb zc : List F}
    (ha : za.length = d.n) (hb : zb.length = d.n) (hz : zc.length = d.n)
    (debug : Bool) :
    rowcheckJob debug c d maxCd cc ic za zb zc =
      (if DensePolynomial.isZero
          (divideByVanishingPoly
            (DensePolynomial.smul ic (instanceRowcheck c d za zb zc)) d.n).2 = true then
        Outcome.ok (DensePolynomial.smul (cc * (d.n : F) * maxCd.size_inv)
          (divideByVanishingPoly
            (DensePolynomial.smul ic (instanceRowcheck c d za zb zc)) d.n).1)
      else Outcome.err "Remainder is not zero") := by
  unfold rowcheckJob
  rw [calculate_z_m_ok hc hd ha, calculate_z_m_ok hc hd hb, calculate_z_m_ok hc hd hz]
  simp only [Outcome.bind, nil_add]
  have hlhs : DensePolynomial.smul ic
      (DensePolynomial.subTrunc
        (DensePolynomial.mul (interpolate za d) (interpolate zb d))
        (interpolate zc d)) =
      DensePolynomial.smul ic (instanceRowcheck c d za zb zc) := by
    rw [instanceRowcheck, hc]
  rw [hlhs, apply_randomized_selector_false]
  by_cases hrem : DensePolynomial.isZero
      (divideByVanishingPoly
        (DensePolynomial.smul ic (instanceRowcheck c d za zb zc)) d.n).2 = true
  · simp only [if_pos hrem]
  · simp only [if_neg hrem]

/-! ## The reduction fold -/

section ReduceLemmas

variable {F : Type} [Field F] [DecidableEq F]

theorem add_comm' (p q : DensePolynomial F) :
    DensePolynomial.add p q = DensePolynomial.add q p := by
  induction p generalizing q with
  | nil => cases q <;> rfl
  | cons a p ih =>
    cases q with
    | nil => rfl
    | cons b q =>
      show (a + b) :: DensePolynomial.add p q = (b + a) :: DensePolynomial.add q p
      rw [ih, add_comm a b]

theorem add_assoc' (p q r : DensePolynomial F) :
    DensePolynomial.add (DensePolynomial.add p q) r =
      DensePolynomial.add p (DensePolynomial.add q r) := by
  induction p generalizing q r with
  | nil => rw [nil_add, nil_add]
  | cons a p ih =>
    cases q with
    | nil => rw [DensePolynomial.add_nil, nil_add]
    | cons b q =>
      cases r with
      | nil => rw [DensePolynomial.add_nil, DensePolynomial.add_nil]
      | cons c r =>
        show (a + b + c) :: DensePolynomial.add (DensePolynomial.add p q) r =
          (a + (b + c)) :: DensePolynomial.add p (DensePolynomial.add q r)
        rw [ih, add_assoc a b c]

theorem isPanic_panic {α : Type} (m : String) :
    (Outcome.panic m : Outcome α).isPanic = true := rfl

theorem isErr_err {α : Type} (m : String) :
    (Outcome.err m : Outcome α).isErr = true := rfl

theorem reduceOp_ok_ok (a b : DensePolynomial F) :
    reduceOp (Outcome.ok a) (Outcome.ok b) = Outcome.ok (DensePolynomial.add b a) := rfl

theorem reduceOp_not_ok {x : Outcome (DensePolynomial F)}
    (hx : ∀ p, x ≠ Outcome.ok p) (r : Outcome (DensePolynomial F)) :
    ∀ p, reduceOp x r ≠ Outcome.ok p := by
  cases x with
  | ok a => exact absurd rfl (hx a)
  | err m => cases r <;> intro p <;> simp [reduceOp]
  | panic m => cases r <;> intro p <;> simp [reduceOp]

theorem foldl_reduceOp_not_ok :
    ∀ (rs : List (Outcome (DensePolynomial F))) (x : Outcome (DensePolynomial F)),
      (∀ p, x ≠ Outcome.ok p) → ∀ h, rs.foldl reduceOp x ≠ Outcome.ok h := by
  intro rs
  induction rs with
  | nil => intro x hx h; exact hx h
  | cons r rs ih =>
    intro x hx h
    rw [List.foldl_cons]
    exact ih _ (reduceOp_not_ok hx r) h

/-- Any property of polynomials preserved by `add` and satisfied by the
accumulator is satisfied by a successful reduction result. -/
theorem reduce_invariant (P : DensePolynomial F → Prop)
    (hP : ∀ a b, P a → P b → P (DensePolynomial.add b a)) :
    ∀ (rs : List (Outcome (DensePolynomial F))) (acc : DensePolynomial F),
      (∀ r ∈ rs, ∀ p, r = Outcome.ok p → P p) → P acc →
      ∀ h, rs.foldl reduceOp (Outcome.ok acc) = Outcome.ok h → P h := by
  intro rs
  induction rs with
  | nil =>
    intro acc _ hacc h hh
    rw [List.foldl_nil] at hh
    injection hh with hh
    rw [← hh]
    exact hacc
  | cons r rs ih =>
    intro acc hrs hacc h hh
    rw [List.foldl_cons] at hh
    cases r with
    | ok b =>
      rw [reduceOp_ok_ok] at hh
      exact ih _ (fun r hr => hrs r (List.mem_cons_of_mem _ hr))
        (hP acc b hacc (hrs _ (List.mem_cons_self _ _) b rfl)) h hh
    | err m =>
      exact absurd hh (foldl_reduceOp_not_ok rs _ (by intro p; simp [reduceOp]) h)
    | panic m =>
      exact absurd hh (foldl_reduceOp_not_ok rs _ (by intro p; simp [reduceOp]) h)

theorem foldl_reduceOp_err (M : String) :
    ∀ (rs : List (Outcome (DensePolynomial F))),
      (∀ r ∈ rs, r.isPanic = false) →
      rs.foldl reduceOp (Outcome.err M) = Outcome.err M := by
  intro rs
  induction rs with
  | nil => intro _; rfl
  | cons r rs ih =>
    intro hps
    rw [List.foldl_cons]
    have hr : reduceOp (Outcome.err M) r = Outcome.err M := by
      cases r with
      | ok a => rfl
      | err m => rfl
      | panic m =>
        have h1 := hps _ (List.mem_cons_self _ _)
        rw [isPanic_panic] at h1
        exact absurd h1 (by simp)
    rw [hr]
    exact ih (fun r hr => hps r (List.mem_cons_of_mem _ hr))

/-- When no job panics, at least one job reports an error, and every
reported error carries the message `M`, the reduction reports `M`. -/
theorem foldl_reduceOp_some_err (M : String) :
    ∀ (rs : List (Outcome (DensePolynomial F))) (acc : DensePolynomial F),
      (∀ r ∈ rs, r.isPanic = false) →
      (∀ r ∈ rs, ∀ m, r = Outcome.err m → m = M) →
      (∃ r ∈ rs, r.isErr = true) →
      rs.foldl reduceOp (Outcome.ok acc) = Outcome.err M := by
  intro rs
  induction rs with
  | nil =>
    intro acc _ _ hex
    obtain ⟨r, hr, _⟩ := hex
    exact absurd hr (List.not_mem_nil r)
  | cons r rs ih =>
    intro acc hps herrs hex
    rw [List.foldl_cons]
    cases r with
    | ok b =>
      rw [reduceOp_ok_ok]
      refine ih _ (fun r hr => hps r (List.mem_cons_of_mem _ hr))
        (fun r hr => herrs r (List.mem_cons_of_mem _ hr)) ?_
      obtain ⟨r, hr, hre⟩ := hex
      rcases List.mem_cons.mp hr with rfl | hr'
      · exact absurd hre (by simp [Outcome.isErr])
      · exact ⟨r, hr', hre⟩
    | err m =>
      have hm : m = M := herrs _ (List.mem_cons_self _ _) m rfl
      subst hm
      have : reduceOp (Outcome.ok acc) (Outcome.err m) = Outcome.err m := rfl
      rw [this]
      exact foldl_reduceOp_err m rs (fun r hr => hps r (List.mem_cons_of_mem _ hr))
    | panic m =>
      have h1 := hps _ (List.mem_cons_self _ _)
      rw [isPanic_panic] at h1
      exact absurd h1 (by simp)

/-- The sum of a list of polynomials, exactly as the reduction computes
it (`b += a` accumulates into the freshly produced polynomial). -/
def sumPolys (ps : List (DensePolynomial F)) : DensePolynomial F :=
  ps.foldl (fun acc p => DensePolynomial.add p acc) []

theorem foldl_map_ok :
    ∀ (ps : List (DensePolynomial F)) (acc : DensePolynomial F),
      (ps.map Outcome.ok).foldl reduceOp (Outcome.ok acc) =
        Outcome.ok (ps.foldl (fun acc p => DensePolynomial.add p acc) acc) := by
  intro ps
  induction ps with
  | nil => intro acc; rfl
  | cons p ps ih =>
    intro acc
    rw [List.map_cons, List.foldl_cons, List.foldl_cons, reduceOp_ok_ok]
    exact ih _

theorem reduceJobs_map_ok (ps : List (DensePolynomial F)) :
    reduceJobs (ps.map Outcome.ok) = Outcome.ok (sumPolys ps) := by
  unfold reduceJobs sumPolys
  exact foldl_map_ok ps []

theorem foldl_add_perm {ps qs : List (DensePolynomial F)} (h : ps.Perm qs) :
    ∀ acc, ps.foldl (fun acc p => DensePolynomial.add p acc) acc =
      qs.foldl (fun acc p => DensePolynomial.add p acc) acc := by
  induction h with
  | nil => intro acc; rfl
  | cons x _ ih =>
    intro acc
    rw [List.foldl_cons, List.foldl_cons]
    exact ih _
  | swap x y l =>
    intro acc
    rw [List.foldl_cons, List.foldl_cons, List.foldl_cons, List.foldl_cons]
    have hxy : DensePolynomial.add x (DensePolynomial.add y acc) =
        DensePolynomial.add y (DensePolynomial.add x acc) := by
      rw [← add_assoc', add_comm' x y, add_assoc']
    rw [hxy]
  | trans _ _ ih1 ih2 =>
    intro acc
    rw [ih1, ih2]

theorem sumPolys_perm {ps qs : List (DensePolynomial F)} (h : ps.Perm qs) :
    sumPolys ps = sumPolys qs := by
  unfold sumPolys
  exact foldl_add_perm h []

end ReduceLemmas

/-! ## Job construction: success, panics and membership -/

section BuildLemmas

variable {F : Type} [Field F] [DecidableEq F]

/-- The job list produced by `buildJobs` on inputs where no take or
lookup fails. -/
def jobsOf (debug : Bool) (maxCd : EvaluationDomain F)
    (bc : List (ℕ × BatchCombiners F)) :
    List (Circuit F × CircuitSpecificState F) →
      List (Outcome (DensePolynomial F))
  | [] => []
  | (c, cs) :: rest =>
    circuitJobs debug maxCd c cs.constraint_domain
      ((lookupCombiners bc c.id).getD ⟨0, []⟩).circuit_combiner
      ((lookupCombiners bc c.id).getD ⟨0, []⟩).instance_combiners
      (cs.z_a.getD []) (cs.z_b.getD []) (cs.z_c.getD []) ++
    jobsOf debug maxCd bc rest

/-- Every circuit state has its three witness columns and a combiner
entry. -/
def witnessesPresent (bc : List (ℕ × BatchCombiners F))
    (l : List (Circuit F × CircuitSpecificState F)) : Prop :=
  ∀ p ∈ l, (lookupCombiners bc p.1.id).isSome = true ∧
    p.2.z_a.isSome = true ∧ p.2.z_b.isSome = true ∧ p.2.z_c.isSome = true

theorem buildJobs_ok_of_present (debug : Bool) (maxCd : EvaluationDomain F)
    (bc : List (ℕ × BatchCombiners F)) :
    ∀ (l : List (Circuit F × CircuitSpecificState F)), witnessesPresent bc l →
      buildJobs debug maxCd bc l = Outcome.ok (jobsOf debug maxCd bc l) := by
  intro l
  induction l with
  | nil => intro _; rfl
  | cons q rest ih =>
    intro hwp
    obtain ⟨c, cs⟩ := q
    obtain ⟨hcomb, hza, hzb, hzc⟩ := hwp _ (List.mem_cons_self _ _)
    obtain ⟨comb, hcomb⟩ := Option.isSome_iff_exists.mp hcomb
    obtain ⟨A, hA⟩ := Option.isSome_iff_exists.mp hza
    obtain ⟨B, hB⟩ := Option.isSome_iff_exists.mp hzb
    obtain ⟨C, hC⟩ := Option.isSome_iff_exists.mp hzc
    show buildJobs debug maxCd bc ((c, cs) :: rest) =
      Outcome.ok (jobsOf debug maxCd bc ((c, cs) :: rest))
    rw [jobsOf, buildJobs, hA, hB, hC, hcomb,
      ih (fun p hp => hwp p (List.mem_cons_of_mem _ hp))]
    rfl

theorem buildJobs_panic_of_missing (debug : Bool) (maxCd : EvaluationDomain F)
    (bc : List (ℕ × BatchCombiners F)) :
    ∀ (l : List (Circuit F × CircuitSpecificState F)),
      (∃ p ∈ l, lookupCombiners bc p.1.id = none ∨
        p.2.z_a = none ∨ p.2.z_b = none ∨ p.2.z_c = none) →
      ∃ m, buildJobs debug maxCd bc l = Outcome.panic m := by
  intro l
  induction l with
  | nil =>
    rintro ⟨p, hp, _⟩
    exact absurd hp (List.not_mem_nil p)
  | cons q rest ih =>
    rintro ⟨p, hp, hbad⟩
    obtain ⟨c, cs⟩ := q
    show ∃ m, buildJobs debug maxCd bc ((c, cs) :: rest) = Outcome.panic m
    unfold buildJobs
    rcases List.mem_cons.mp hp with rfl | hp'
    · -- the offending circuit is the head
      simp only at hbad
      rcases hbad with hbad | hbad | hbad | hbad
      · cases hA : cs.z_a with
        | none => exact ⟨_, rfl⟩
        | some A =>
          cases hB : cs.z_b with
          | none => exact ⟨_, rfl⟩
          | some B =>
            cases hC : cs.z_c with
            | none => exact ⟨_, rfl⟩
            | some C =>
              rw [hbad]
              exact ⟨_, rfl⟩
      · rw [hbad]; exact ⟨_, rfl⟩
      · cases hA : cs.z_a with
        | none => exact ⟨_, rfl⟩
        | some A => rw [hbad]; exact ⟨_, rfl⟩
      · cases hA : cs.z_a with
        | none => exact ⟨_, rfl⟩
        | some A =>
          cases hB : cs.z_b with
          | none => exact ⟨_, rfl⟩
          | some B => rw [hbad]; exact ⟨_, rfl⟩
    · -- the offending circuit is further down the list
      cases hA : cs.z_a with
      | none => exact ⟨_, rfl⟩
      | some A =>
        cases hB : cs.z_b with
        | none => exact ⟨_, rfl⟩
        | some B =>
          cases hC : cs.z_c with
          | none => exact ⟨_, rfl⟩
          | some C =>
            cases hcomb : lookupCombiners bc c.id with
            | none => exact ⟨_, rfl⟩
            | some comb =>
              obtain ⟨m, hm⟩ := ih ⟨p, hp', hbad⟩
              rw [hm]
              exact ⟨m, rfl⟩

theorem jobsOf_mem_inv {debug : Bool} {maxCd : EvaluationDomain F}
    {bc : List (ℕ × BatchCombiners F)}
    {l : List (Circuit F × CircuitSpecificState F)}
    {r : Outcome (DensePolynomial F)} (hr : r ∈ jobsOf debug maxCd bc l) :
    ∃ p ∈ l, r ∈ circuitJobs debug maxCd p.1 p.2.constraint_domain
      ((lookupCombiners bc p.1.id).getD ⟨0, []⟩).circuit_combiner
      ((lookupCombiners bc p.1.id).getD ⟨0, []⟩).instance_combiners
      (p.2.z_a.getD []) (p.2.z_b.getD []) (p.2.z_c.getD []) := by
  induction l with
  | nil => exact absurd hr (List.not_mem_nil r)
  | cons q rest ih =>
    obtain ⟨c, cs⟩ := q
    rw [jobsOf, List.mem_append] at hr
    rcases hr with hr | hr
    · exact ⟨(c, cs), List.mem_cons_self _ _, hr⟩
    · obtain ⟨p, hp, hmem⟩ := ih hr
      exact ⟨p, List.mem_cons_of_mem _ hp, hmem⟩

theorem jobsOf_mem_of_mem {debug : Bool} {maxCd : EvaluationDomain F}
    {bc : List (ℕ × BatchCombiners F)}
    {l : List (Circuit F × CircuitSpecificState F)}
    {p : Circuit F × CircuitSpecificState F} (hp : p ∈ l)
    {r : Outcome (DensePolynomial F)}
    (hr : r ∈ circuitJobs debug maxCd p.1 p.2.constraint_domain
      ((lookupCombiners bc p.1.id).getD ⟨0, []⟩).circuit_combiner
      ((lookupCombiners bc p.1.id).getD ⟨0, []⟩).instance_combiners
      (p.2.z_a.getD []) (p.2.z_b.getD []) (p.2.z_c.getD [])) :
    r ∈ jobsOf debug maxCd bc l := by
  induction l with
  | nil => exact absurd hp (List.not_mem_nil p)
  | cons q rest ih =>
    rcases List.mem_cons.mp hp with rfl | hp'
    · obtain ⟨c, cs⟩ := p
      rw [jobsOf, List.mem_append]
      exact Or.inl hr
    · obtain ⟨c, cs⟩ := q
      rw [jobsOf, List.mem_append]
      exact Or.inr (ih hp')

theorem zip4_getElem? {α β γ δ : Type} :
    ∀ (as : List α) (bs : List β) (cs : List γ) (ds : List δ) (j : ℕ)
      (a : α) (b : β) (c : γ) (dd : δ),
      as[j]? = some a → bs[j]? = some b → cs[j]? = some c → ds[j]? = some dd →
      (zip4 as bs cs ds)[j]? = some (a, b, c, dd) := by
  intro as
  induction as with
  | nil => intro bs cs ds j a b c dd ha; simp at ha
  | cons x as ih =>
    intro bs cs ds j a b c dd ha hb hc hd
    cases bs with
    | nil => simp at hb
    | cons y bs =>
      cases cs with
      | nil => simp at hc
      | cons z cs =>
        cases ds with
        | nil => simp at hd
        | cons w ds =>
          rw [zip4]
          cases j with
          | zero =>
            simp at ha hb hc hd
            simp [ha, hb, hc, hd]
          | succ j =>
            simp at ha hb hc hd
            simpa using ih bs cs ds j a b c dd ha hb hc hd

theorem zip4_nil_left {α β γ δ : Type} (bs : List β) (cs : List γ)
    (ds : List δ) : zip4 ([] : List α) bs cs ds = [] := by
  cases bs <;> cases cs <;> cases ds <;> rfl

theorem zip4_nil_snd {α β γ δ : Type} (x : α) (as : List α) (cs : List γ)
    (ds : List δ) : zip4 (x :: as) ([] : List β) cs ds = [] := by
  cases cs <;> cases ds <;> rfl

theorem zip4_nil_trd {α β γ δ : Type} (x : α) (as : List α) (y : β)
    (bs : List β) (ds : List δ) :
    zip4 (x :: as) (y :: bs) ([] : List γ) ds = [] := by
  cases ds <;> rfl

theorem zip4_nil_fth {α β γ δ : Type} (x : α) (as : List α) (y : β)
    (bs : List β) (z : γ) (cs : List γ) :
    zip4 (x :: as) (y :: bs) (z :: cs) ([] : List δ) = [] := rfl

theorem zip4_mem {α β γ δ : Type} :
    ∀ {as : List α} {bs : List β} {cs : List γ} {ds : List δ}
      {t : α × β × γ × δ}, t ∈ zip4 as bs cs ds →
      t.1 ∈ as ∧ t.2.1 ∈ bs ∧ t.2.2.1 ∈ cs ∧ t.2.2.2 ∈ ds := by
  intro as
  induction as with
  | nil =>
    intro bs cs ds t ht
    rw [zip4_nil_left] at ht
    exact absurd ht (List.not_mem_nil t)
  | cons x as ih =>
    intro bs cs ds t ht
    cases bs with
    | nil => rw [zip4_nil_snd] at ht; exact absurd ht (List.not_mem_nil t)
    | cons y bs =>
      cases cs with
      | nil => rw [zip4_nil_trd] at ht; exact absurd ht (List.not_mem_nil t)
      | cons z cs =>
        cases ds with
        | nil => rw [zip4_nil_fth] at ht; exact absurd ht (List.not_mem_nil t)
        | cons w ds =>
          rw [zip4, List.mem_cons] at ht
          rcases ht with rfl | ht
          · simp
          · obtain ⟨h1, h2, h3, h4⟩ := ih ht
            exact ⟨List.mem_cons_of_mem _ h1, List.mem_cons_of_mem _ h2,
              List.mem_cons_of_mem _ h3, List.mem_cons_of_mem _ h4⟩

end BuildLemmas

/-! ## Honest inputs and job outcomes -/

section HonestLemmas

variable {F : Type} [Field F] [DecidableEq F]

/-- A well-formed round-2 input: every circuit carries the honest IFFT
precomputation, a valid constraint domain, a combiner entry, its three
witness columns, and rows of the domain's length. -/
def honestInput (bc : List (ℕ × BatchCombiners F))
    (l : List (Circuit F × CircuitSpecificState F)) : Prop :=
  ∀ p ∈ l,
    p.1.ifft_precomputation = (fun w dd => interpolate w dd) ∧
    p.2.constraint_domain.valid ∧
    (lookupCombiners bc p.1.id).isSome = true ∧
    p.2.z_a.isSome = true ∧ p.2.z_b.isSome = true ∧ p.2.z_c.isSome = true ∧
    (∀ row ∈ p.2.z_a.getD [], row.length = p.2.constraint_domain.n) ∧
    (∀ row ∈ p.2.z_b.getD [], row.length = p.2.constraint_domain.n) ∧
    (∀ row ∈ p.2.z_c.getD [], row.length = p.2.constraint_domain.n)

theorem honestInput.present {bc : List (ℕ × BatchCombiners F)}
    {l : List (Circuit F × CircuitSpecificState F)} (h : honestInput bc l) :
    witnessesPresent bc l := by
  intro p hp
  obtain ⟨_, _, h3, h4, h5, h6, _⟩ := h p hp
  exact ⟨h3, h4, h5, h6⟩

/-- On an honest input no job panics, and any reported job error is the
missing-remainder report. -/
theorem jobsOf_benign {debug : Bool} {maxCd : EvaluationDomain F}
    {bc : List (ℕ × BatchCombiners F)}
    {l : List (Circuit F × CircuitSpecificState F)} (hwf : honestInput bc l) :
    ∀ r ∈ jobsOf debug maxCd bc l,
      r.isPanic = false ∧ ∀ m, r = Outcome.err m → m = "Remainder is not zero" := by
  intro r hr
  obtain ⟨p, hp, hmem⟩ := jobsOf_mem_inv hr
  obtain ⟨hifft, hdv, _, _, _, _, hla, hlb, hlc⟩ := hwf p hp
  rw [circuitJobs, List.mem_map] at hmem
  obtain ⟨t, ht, rfl⟩ := hmem
  obtain ⟨-, hta, htb, htc⟩ := zip4_mem ht
  have ha := hla _ hta
  have hb := hlb _ htb
  have hc := hlc _ htc
  rw [rowcheckJob_eq_of_honest hifft hdv _ _ _ ha hb hc debug]
  by_cases hrem : DensePolynomial.isZero
      (divideByVanishingPoly
        (DensePolynomial.smul t.1
          (instanceRowcheck p.1 p.2.constraint_domain t.2.1 t.2.2.1 t.2.2.2))
        p.2.constraint_domain.n).2 = true
  · rw [if_pos hrem]
    exact ⟨rfl, fun m hm => by simp at hm⟩
  · rw [if_neg hrem]
    refine ⟨rfl, fun m hm => ?_⟩
    injection hm with hm
    exact hm.symm

/-- Inversion of a successful `buildJobs`: every produced job belongs to
the instance list of some circuit of the input, with its witnesses and
combiners present. -/
theorem buildJobs_ok_inv {debug : Bool} {maxCd : EvaluationDomain F}
    {bc : List (ℕ × BatchCombiners F)} :
    ∀ {l : List (Circuit F × CircuitSpecificState F)}
      {jobs : List (Outcome (DensePolynomial F))},
      buildJobs debug maxCd bc l = Outcome.ok jobs →
      ∀ r ∈ jobs, ∃ c cs comb A B C, (c, cs) ∈ l ∧
        lookupCombiners bc c.id = some comb ∧
        cs.z_a = some A ∧ cs.z_b = some B ∧ cs.z_c = some C ∧
        r ∈ circuitJobs debug maxCd c cs.constraint_domain
          comb.circuit_combiner comb.instance_combiners A B C := by
  intro l
  induction l with
  | nil =>
    intro jobs hj r hr
    rw [buildJobs] at hj
    injection hj with hj
    rw [← hj] at hr
    exact absurd hr (List.not_mem_nil r)
  | cons q rest ih =>
    intro jobs hj r hr
    obtain ⟨c, cs⟩ := q
    rw [buildJobs] at hj
    cases hA : cs.z_a with
    | none => rw [hA] at hj; exact absurd hj (by simp)
    | some A =>
    cases hB : cs.z_b with
    | none => rw [hA, hB] at hj; exact absurd hj (by simp)
    | some B =>
    cases hC : cs.z_c with
    | none => rw [hA, hB, hC] at hj; exact absurd hj (by simp)
    | some C =>
    cases hcomb : lookupCombiners bc c.id with
    | none => rw [hA, hB, hC, hcomb] at hj; exact absurd hj (by simp)
    | some comb =>
      rw [hA, hB, hC, hcomb] at hj
      rw [Outcome.bind_eq_ok] at hj
      obtain ⟨restJobs, hrest, hj⟩ := hj
      injection hj with hj
      rw [← hj, List.mem_append] at hr
      rcases hr with hr | hr
      · exact ⟨c, cs, comb, A, B, C, List.mem_cons_self _ _,
          hcomb, hA, hB, hC, hr⟩
      · obtain ⟨c1, cs1, comb1, A1, B1, C1, hmem, h1, h2, h3, h4, h5⟩ :=
          ih hrest r hr
        exact ⟨c1, cs1, comb1, A1, B1, C1, List.mem_cons_of_mem _ hmem,
          h1, h2, h3, h4, h5⟩

/-- A successful job over an honest circuit produces a polynomial of
length at most `n - 1` for the circuit's domain size `n`. -/
theorem rowcheckJob_ok_length {debug : Bool} {c : Circuit F}
    (hc : c.ifft_precomputation = fun w dd => interpolate w dd)
    {d maxCd : EvaluationDomain F} {cc ic : F} {za zb zc : List F}
    {h : DensePolynomial F}
    (hok : rowcheckJob debug c d maxCd cc ic za zb zc = Outcome.ok h) :
    h.length ≤ d.n - 1 := by
  unfold rowcheckJob at hok
  rw [Outcome.bind_eq_ok] at hok
  obtain ⟨pa, hpa, hok⟩ := hok
  rw [Outcome.bind_eq_ok] at hok
  obtain ⟨pb, hpb, hok⟩ := hok
  rw [Outcome.bind_eq_ok] at hok
  obtain ⟨pc, hpc, hok⟩ := hok
  rw [Outcome.bind_eq_ok] at hok
  obtain ⟨a, hsel, hfin⟩ := hok
  have hpa' : pa = interpolate za d := by
    rcases calculate_z_m_cases debug za d c with hcc | hcc <;> rw [hcc] at hpa
    · exact absurd hpa (by simp)
    · injection hpa with h1; rw [← h1, hc]
  have hpb' : pb = interpolate zb d := by
    rcases calculate_z_m_cases debug zb d c with hcc | hcc <;> rw [hcc] at hpb
    · exact absurd hpb (by simp)
    · injection hpb with h1; rw [← h1, hc]
  have hpc' : pc = interpolate zc d := by
    rcases calculate_z_m_cases debug zc d c with hcc | hcc <;> rw [hcc] at hpc
    · exact absurd hpc (by simp)
    · injection hpc with h1; rw [← h1, hc]
  rw [apply_randomized_selector_false] at hsel
  by_cases hrem : DensePolynomial.isZero
      (divideByVanishingPoly
        (DensePolynomial.add []
          (DensePolynomial.smul ic
            (DensePolynomial.subTrunc (DensePolynomial.mul pa pb) pc))) d.n).2 = true
  · rw [if_pos hrem] at hsel
    injection hsel with hsel
    rw [← hsel] at hfin
    have hh : h = DensePolynomial.smul (cc * (d.n : F) * maxCd.size_inv)
        (divideByVanishingPoly
          (DensePolynomial.add []
            (DensePolynomial.smul ic
              (DensePolynomial.subTrunc (DensePolynomial.mul pa pb) pc))) d.n).1 := by
      injection hfin with hfin
      exact hfin.symm
    rw [hh, DensePolynomial.smul_length]
    have hquot := divideByVanishingPoly_quot_length
      (DensePolynomial.add []
        (DensePolynomial.smul ic
          (DensePolynomial.subTrunc (DensePolynomial.mul pa pb) pc))) d.n
    have hlen : (DensePolynomial.add []
        (DensePolynomial.smul ic
          (DensePolynomial.subTrunc (DensePolynomial.mul pa pb) pc))).length ≤
        2 * d.n - 1 := by
      rw [nil_add, DensePolynomial.smul_length, DensePolynomial.subTrunc_length]
      have h1 := DensePolynomial.mul_length_le pa pb
      have h2 : pa.length ≤ d.n := by rw [hpa']; exact interpolate_length_le za d
      have h3 : pb.length ≤ d.n := by rw [hpb']; exact interpolate_length_le zb d
      omega
    omega
  · rw [if_neg hrem] at hsel
    exact absurd hsel (by simp)

end HonestLemmas

/-! ## Inversions of the top-level round function -/

section TopLemmas

variable {F : Type} [Field F] [DecidableEq F]

theorem matchesInfo_h0 (p : DensePolynomial F) :
    matchesInfo (⟨⟨"h_0", p, none, none⟩⟩ : SecondOracles F)
      second_round_polynomial_info = true := by
  simp [matchesInfo, second_round_polynomial_info]

/-- A successful round 2 reduces to a successful
`calculate_rowcheck_witness` whose polynomial became the oracle and
passed the degree-bound assertion. -/
theorem prover_second_round_ok_inv {debug : Bool} {zk : Option ℕ}
    {msg : FirstMessage F} {state : ProverState F}
    {r : SecondOracles F × ProverState F}
    (hok : prover_second_round debug zk msg state = Outcome.ok r) :
    ∃ r0, calculate_rowcheck_witness debug state msg.batch_combiners =
        Outcome.ok r0 ∧ r.1.h_0.polynomial = r0.1 := by
  unfold prover_second_round at hok
  rw [Outcome.bind_eq_ok] at hok
  obtain ⟨r0, h1, h2⟩ := hok
  refine ⟨r0, h1, ?_⟩
  dsimp only at h2
  by_cases hdeg : DensePolynomial.natDegree r0.1 ≤
      2 * state.max_constraint_domain.n + 2 * zk.getD 0 - 2
  · rw [if_pos hdeg, if_pos (matchesInfo_h0 r0.1)] at h2
    injection h2 with h2
    rw [← h2]
  · rw [if_neg hdeg] at h2
    exact absurd h2 (by simp)

theorem prover_second_round_err {debug : Bool} {zk : Option ℕ}
    {msg : FirstMessage F} {state : ProverState F} {m : String}
    (h : calculate_rowcheck_witness debug state msg.batch_combiners =
      Outcome.err m) :
    prover_second_round debug zk msg state = Outcome.err m := by
  unfold prover_second_round
  rw [h]
  rfl

theorem prover_second_round_panic {debug : Bool} {zk : Option ℕ}
    {msg : FirstMessage F} {state : ProverState F} {m : String}
    (h : calculate_rowcheck_witness debug state msg.batch_combiners =
      Outcome.panic m) :
    prover_second_round debug zk msg state = Outcome.panic m := by
  unfold prover_second_round
  rw [h]
  rfl

theorem calculate_rowcheck_witness_err {debug : Bool}
    {state : ProverState F} {bc : List (ℕ × BatchCombiners F)}
    (hwp : witnessesPresent bc state.circuit_specific_states) {M : String}
    (hred : reduceJobs (jobsOf debug state.max_constraint_domain bc
      state.circuit_specific_states) = Outcome.err M) :
    calculate_rowcheck_witness debug state bc = Outcome.err M := by
  unfold calculate_rowcheck_witness
  rw [buildJobs_ok_of_present _ _ _ _ hwp]
  show Outcome.bind (Outcome.bind (Outcome.ok _) _) _ = _
  simp only [Outcome.bind]
  rw [hred]

theorem calculate_rowcheck_witness_panic {debug : Bool}
    {state : ProverState F} {bc : List (ℕ × BatchCombiners F)} {M : String}
    (hb : buildJobs debug state.max_constraint_domain bc
      state.circuit_specific_states = Outcome.panic M) :
    calculate_rowcheck_witness debug state bc = Outcome.panic M := by
  unfold calculate_rowcheck_witness
  rw [hb]
  rfl

theorem calculate_rowcheck_witness_ok_length {debug : Bool}
    {state : ProverState F} {bc : List (ℕ × BatchCombiners F)}
    (hint : ∀ p ∈ state.circuit_specific_states,
      p.1.ifft_precomputation = fun w dd => interpolate w dd)
    (hdom : ∀ p ∈ state.circuit_specific_states,
      p.2.constraint_domain.n ≤ state.max_constraint_domain.n)
    {r : DensePolynomial F × ProverState F}
    (hok : calculate_rowcheck_witness debug state bc = Outcome.ok r) :
    r.1.length ≤ state.max_constraint_domain.n - 1 := by
  unfold calculate_rowcheck_witness at hok
  rw [Outcome.bind_eq_ok] at hok
  obtain ⟨jobs, hjobs, hok⟩ := hok
  rw [Outcome.bind_eq_ok] at hok
  obtain ⟨h_sum, hred, hfin⟩ := hok
  injection hfin with hfin
  have hr1 : r.1 = h_sum := by rw [← hfin]
  rw [hr1]
  unfold reduceJobs at hred
  refine reduce_invariant
    (fun p => p.length ≤ state.max_constraint_domain.n - 1)
    (fun a b h1 h2 => by
      show (DensePolynomial.add b a).length ≤ _
      rw [DensePolynomial.add_length]
      simp only at h1 h2
      omega)
    jobs [] ?_ (by simp) h_sum hred
  intro rr hrr p hrp
  obtain ⟨c, cs, comb, A, B, C, hmem, hcomb, hA, hB, hC, hcj⟩ :=
    buildJobs_ok_inv hjobs rr hrr
  rw [circuitJobs, List.mem_map] at hcj
  obtain ⟨t, ht, rfl⟩ := hcj
  have hlen := rowcheckJob_ok_length (hint (c, cs) hmem) hrp
  have hd := hdom (c, cs) hmem
  simp only at hlen hd
  omega

end TopLemmas

/-! ## Evaluating the computed rowcheck at domain points -/

section RowcheckEval

variable {F : Type} [Field F] [DecidableEq F]

theorem eval_map_neg (p : DensePolynomial F) (x : F) :
    DensePolynomial.eval (p.map (fun a => -a)) x = -DensePolynomial.eval p x := by
  induction p with
  | nil => simp [DensePolynomial.eval_nil]
  | cons a p ih =>
    simp only [List.map_cons, DensePolynomial.eval_cons, ih]
    ring

theorem eval_sub (p q : DensePolynomial F) (x : F) :
    DensePolynomial.eval (DensePolynomial.sub p q) x =
      DensePolynomial.eval p x - DensePolynomial.eval q x := by
  unfold DensePolynomial.sub
  rw [DensePolynomial.eval_add, eval_map_neg]
  ring

theorem subTrunc_eq_sub : ∀ {p q : DensePolynomial F}, q.length ≤ p.length →
    DensePolynomial.subTrunc p q = DensePolynomial.sub p q := by
  intro p
  induction p with
  | nil =>
    intro q h
    have hq : q = [] := List.length_eq_zero.mp (Nat.le_zero.mp h)
    subst hq
    rfl
  | cons a p ih =>
    intro q h
    cases q with
    | nil =>
      show DensePolynomial.subTrunc (a :: p) [] = _
      unfold DensePolynomial.subTrunc DensePolynomial.sub
      rw [List.zipWith_nil_right, List.map_nil, DensePolynomial.add_nil]
      simp
    | cons b q =>
      have h' : q.length ≤ p.length := by simpa using h
      show DensePolynomial.subTrunc (a :: p) (b :: q) = _
      unfold DensePolynomial.subTrunc DensePolynomial.sub
      rw [List.zipWith_cons_cons, List.length_cons, List.drop_succ_cons,
        List.map_cons]
      show (a - b) :: DensePolynomial.subTrunc p q = _
      rw [ih h']
      unfold DensePolynomial.sub
      show _ = DensePolynomial.add (a :: p) ((-b) :: q.map (fun a => -a))
      show _ = (a + -b) :: DensePolynomial.add p (q.map (fun a => -a))
      rw [sub_eq_add_neg]

theorem eval_instanceRowcheck {c : Circuit F}
    (hc : c.ifft_precomputation = fun w dd => interpolate w dd)
    {d : EvaluationDomain F} (hd : d.valid) (za zb zc : List F)
    {k : ℕ} (hk : k < d.n)
    (hlen : (interpolate zc d).length ≤
      (DensePolynomial.mul (interpolate za d) (interpolate zb d)).length) :
    DensePolynomial.eval (instanceRowcheck c d za zb zc) (d.group_gen ^ k) =
      za.getD k 0 * zb.getD k 0 - zc.getD k 0 := by
  unfold instanceRowcheck
  rw [hc]
  show DensePolynomial.eval (DensePolynomial.subTrunc _ _) _ = _
  rw [subTrunc_eq_sub hlen, eval_sub, DensePolynomial.eval_mul,
    eval_interpolate hd za hk, eval_interpolate hd zb hk,
    eval_interpolate hd zc hk]

/-- If a polynomial does not vanish at a point of the domain, the
remainder of its division by the vanishing polynomial is nonzero. -/
theorem remainder_not_zero_of_eval_ne {d : EvaluationDomain F} (hd : d.valid)
    {p : DensePolynomial F} {k : ℕ} (hk : k < d.n)
    (hne : DensePolynomial.eval p (d.group_gen ^ k) ≠ 0) :
    DensePolynomial.isZero (divideByVanishingPoly p d.n).2 = false := by
  rw [Bool.eq_false_iff]
  intro hz
  have hev := divideByVanishingPoly_eval (d.group_gen ^ k) p d.n hd.1
  have hxn : (d.group_gen ^ k) ^ d.n = 1 := by
    rw [← pow_mul, mul_comm, pow_mul, hd.2.2.2.1, one_pow]
  rw [hxn, sub_self, mul_zero, zero_add] at hev
  rw [DensePolynomial.eval_of_isZero hz] at hev
  exact hne hev

theorem zip4_index {α β γ δ : Type} :
    ∀ {as : List α} {bs : List β} {cs : List γ} {ds : List δ}
      {t : α × β × γ × δ}, t ∈ zip4 as bs cs ds →
      ∃ j : ℕ, as[j]? = some t.1 ∧ bs[j]? = some t.2.1 ∧
        cs[j]? = some t.2.2.1 ∧ ds[j]? = some t.2.2.2 := by
  intro as
  induction as with
  | nil =>
    intro bs cs ds t ht
    rw [zip4_nil_left] at ht
    exact absurd ht (List.not_mem_nil t)
  | cons x as ih =>
    intro bs cs ds t ht
    cases bs with
    | nil => rw [zip4_nil_snd] at ht; exact absurd ht (List.not_mem_nil t)
    | cons y bs =>
      cases cs with
      | nil => rw [zip4_nil_trd] at ht; exact absurd ht (List.not_mem_nil t)
      | cons z cs =>
        cases ds with
        | nil => rw [zip4_nil_fth] at ht; exact absurd ht (List.not_mem_nil t)
        | cons w ds =>
          rw [zip4, List.mem_cons] at ht
          rcases ht with rfl | ht
          · exact ⟨0, by simp⟩
          · obtain ⟨j, h1, h2, h3, h4⟩ := ih ht
            refine ⟨j + 1, ?_, ?_, ?_, ?_⟩
            · simpa using h1
            · simpa using h2
            · simpa using h3
            · simpa using h4

theorem satisfiesR1CS_iff :
    ∀ {za zb zc : List F}, za.length = zb.length → zb.length = zc.length →
      (satisfiesR1CS za zb zc = true ↔
        ∀ k < za.length, za.getD k 0 * zb.getD k 0 = zc.getD k 0) := by
  intro za
  induction za with
  | nil =>
    intro zb zc h1 h2
    constructor
    · intro _ k hk; exact absurd hk (by simp)
    · intro _; rfl
  | cons a za ih =>
    intro zb zc h1 h2
    cases zb with
    | nil => simp at h1
    | cons b zb =>
      cases zc with
      | nil => simp at h2
      | cons cv zc =>
        have h1' : za.length = zb.length := by simpa using h1
        have h2' : zb.length = zc.length := by simpa using h2
        unfold satisfiesR1CS
        rw [List.zip_cons_cons, List.zip_cons_cons, List.all_cons,
          Bool.and_eq_true, beq_iff_eq]
        constructor
        · rintro ⟨hhead, htail⟩ k hk
          cases k with
          | zero => simpa using hhead
          | succ k =>
            have hk' : k < za.length := by simpa using hk
            have := ((ih h1' h2').mp htail) k hk'
            simpa using this
        · intro hall
          constructor
          · simpa using hall 0 (by simp)
          · show satisfiesR1CS za zb zc = true
            rw [ih h1' h2']
            intro k hk
            have := hall (k + 1) (by simpa using hk)
            simpa using this

end RowcheckEval

/-! ## Error propagation from a bad instance -/

section ErrPropagation

variable {F : Type} [Field F] [DecidableEq F]

theorem mem_circuitJobs_of_index {debug : Bool} {maxCd : EvaluationDomain F}
    {c : Circuit F} {cd : EvaluationDomain F} {cc : F} {ics : List F}
    {za zb zc : List (List F)} {j : ℕ} {ic : F} {a b cv : List F}
    (h1 : ics[j]? = some ic) (h2 : za[j]? = some a) (h3 : zb[j]? = some b)
    (h4 : zc[j]? = some cv) :
    rowcheckJob debug c cd maxCd cc ic a b cv ∈
      circuitJobs debug maxCd c cd cc ics za zb zc := by
  have hz := zip4_getElem? ics za zb zc j ic a b cv h1 h2 h3 h4
  have hmem := List.getElem?_mem hz
  rw [circuitJobs]
  have hm := List.mem_map_of_mem (fun t : F × List F × List F × List F =>
    rowcheckJob debug c cd maxCd cc t.1 t.2.1 t.2.2.1 t.2.2.2) hmem
  simpa using hm

/-- On an honest input, an instance whose scaled rowcheck residual leaves
a nonzero remainder modulo the vanishing polynomial makes round 2 report
the missing-remainder error. -/
theorem round2_err_of_bad_remainder (debug : Bool) (zk_bound : Option ℕ)
    {msg : FirstMessage F} {state : ProverState F}
    (hwf : honestInput msg.batch_combiners state.circuit_specific_states)
    {p : Circuit F × CircuitSpecificState F}
    (hp : p ∈ state.circuit_specific_states) {comb : BatchCombiners F}
    (hcomb : lookupCombiners msg.batch_combiners p.1.id = some comb)
    {j : ℕ} {ic : F} {a b cv : List F}
    (hic : comb.instance_combiners[j]? = some ic)
    (hja : (p.2.z_a.getD [])[j]? = some a)
    (hjb : (p.2.z_b.getD [])[j]? = some b)
    (hjc : (p.2.z_c.getD [])[j]? = some cv)
    (hrem : DensePolynomial.isZero (divideByVanishingPoly
      (DensePolynomial.smul ic
        (instanceRowcheck p.1 p.2.constraint_domain a b cv))
      p.2.constraint_domain.n).2 = false) :
    prover_second_round debug zk_bound msg state =
      Outcome.err "Remainder is not zero" := by
  obtain ⟨hifft, hdv, -, -, -, -, hla, hlb, hlc⟩ := hwf p hp
  have hja' := hla _ (List.getElem?_mem hja)
  have hjb' := hlb _ (List.getElem?_mem hjb)
  have hjc' := hlc _ (List.getElem?_mem hjc)
  have hjob := rowcheckJob_eq_of_honest hifft hdv state.max_constraint_domain
    comb.circuit_combiner ic hja' hjb' hjc' debug
  rw [hrem] at hjob
  rw [if_neg (by simp)] at hjob
  -- the erring job is one of the queued jobs
  have hgetD : (lookupCombiners msg.batch_combiners p.1.id).getD
      ⟨0, []⟩ = comb := by rw [hcomb]; rfl
  have hmem : rowcheckJob debug p.1 p.2.constraint_domain
      state.max_constraint_domain comb.circuit_combiner ic a b cv ∈
      jobsOf debug state.max_constraint_domain msg.batch_combiners
        state.circuit_specific_states := by
    refine jobsOf_mem_of_mem hp ?_
    rw [hgetD]
    exact mem_circuitJobs_of_index hic hja hjb hjc
  have hred : reduceJobs (jobsOf debug state.max_constraint_domain
      msg.batch_combiners state.circuit_specific_states) =
      Outcome.err "Remainder is not zero" := by
    unfold reduceJobs
    refine foldl_reduceOp_some_err _ _ []
      (fun r hr => (jobsOf_benign hwf r hr).1)
      (fun r hr m hm => (jobsOf_benign hwf r hr).2 m hm) ?_
    refine ⟨_, hmem, ?_⟩
    rw [hjob]
    rfl
  exact prover_second_round_err
    (calculate_rowcheck_witness_err hwf.present hred)

end ErrPropagation

/-! ## The aggregate is zero when every residual is the zero polynomial -/

section ZeroPropagation

variable {F : Type} [Field F] [DecidableEq F]

theorem round2_ok_zero_of_zero_residuals (debug : Bool) (zk_bound : Option ℕ)
    {msg : FirstMessage F} {state : ProverState F}
    (hwf : honestInput msg.batch_combiners state.circuit_specific_states)
    (hzero : ∀ p ∈ state.circuit_specific_states, ∀ (j : ℕ) (a b cv : List F),
      (p.2.z_a.getD [])[j]? = some a → (p.2.z_b.getD [])[j]? = some b →
      (p.2.z_c.getD [])[j]? = some cv →
      DensePolynomial.isZero
        (instanceRowcheck p.1 p.2.constraint_domain a b cv) = true)
    {r : SecondOracles F × ProverState F}
    (hok : prover_second_round debug zk_bound msg state = Outcome.ok r) :
    DensePolynomial.isZero r.1.h_0.polynomial = true := by
  obtain ⟨r0, hcrw, hpoly⟩ := prover_second_round_ok_inv hok
  rw [hpoly]
  unfold calculate_rowcheck_witness at hcrw
  rw [Outcome.bind_eq_ok] at hcrw
  obtain ⟨jobs, hjobs, hcrw⟩ := hcrw
  rw [Outcome.bind_eq_ok] at hcrw
  obtain ⟨h_sum, hred, hfin⟩ := hcrw
  injection hfin with hfin
  have hr1 : r0.1 = h_sum := by rw [← hfin]
  rw [hr1]
  unfold reduceJobs at hred
  refine reduce_invariant (fun p => DensePolynomial.isZero p = true)
    (fun x y h1 h2 => by
      show DensePolynomial.isZero (DensePolynomial.add y x) = true
      simp only at h1 h2
      exact DensePolynomial.isZero_add h2 h1)
    jobs [] ?_ rfl h_sum hred
  intro rr hrr pp hrp
  obtain ⟨c, cs, comb, A, B, C, hmem, hcomb, hA, hB, hC, hcj⟩ :=
    buildJobs_ok_inv hjobs rr hrr
  rw [circuitJobs, List.mem_map] at hcj
  obtain ⟨t, ht, rfl⟩ := hcj
  obtain ⟨j, -, hja, hjb, hjc⟩ := zip4_index ht
  obtain ⟨hifft, hdv, -, -, -, -, hla, hlb, hlc⟩ := hwf (c, cs) hmem
  have hza : (cs.z_a.getD [])[j]? = some t.2.1 := by rw [hA]; exact hja
  have hzb : (cs.z_b.getD [])[j]? = some t.2.2.1 := by rw [hB]; exact hjb
  have hzc : (cs.z_c.getD [])[j]? = some t.2.2.2 := by rw [hC]; exact hjc
  have hz := hzero (c, cs) hmem j t.2.1 t.2.2.1 t.2.2.2 hza hzb hzc
  have hla' := hla _ (List.getElem?_mem hza)
  have hlb' := hlb _ (List.getElem?_mem hzb)
  have hlc' := hlc _ (List.getElem?_mem hzc)
  have hjob := rowcheckJob_eq_of_honest hifft hdv state.max_constraint_domain
    comb.circuit_combiner t.1 hla' hlb' hlc' debug
  have hsmul := DensePolynomial.isZero_smul t.1 hz
  have hdiv := divideByVanishingPoly_isZero _ cs.constraint_domain.n hsmul
  rw [if_pos hdiv.2] at hjob
  rw [hjob] at hrp
  injection hrp with hrp
  rw [← hrp]
  exact DensePolynomial.isZero_smul _ hdiv.1

end ZeroPropagation

/-! ## Import ordering (`.vm/src/program/import/mod.rs`) -/

section ImportOrd

/-- Three-way comparison of naturals, as Rust's `Ord::cmp` on scalars. -/
def natCmp (a b : ℕ) : Ordering :=
  if a < b then Ordering.lt else if b < a then Ordering.gt else Ordering.eq

/-- Lexicographic sequence comparison, as Rust's `Ord for String`
compares byte sequences. -/
def lexCmp : List ℕ → List ℕ → Ordering
  | [], [] => Ordering.eq
  | [], _ :: _ => Ordering.lt
  | _ :: _, [] => Ordering.gt
  | a :: as, b :: bs =>
    match natCmp a b with
    | Ordering.eq => lexCmp as bs
    | o => o

/-- An `import` statement: the imported program name and domain.
Modelled from the spec and code context: `Identifier` lives in the
`console` crate, outside the excerpted sources, so it is abstracted to a
type `Ident`; its `to_string` form is a byte sequence given by a
parameter `str`. -/
structure Import (Ident : Type) where
  name : Ident
  domain : Ident

theorem natCmp_eq_iff (a b : ℕ) : natCmp a b = Ordering.eq ↔ a = b := by
  unfold natCmp
  split
  · constructor
    · intro h; exact absurd h (by simp)
    · omega
  · split
    · constructor
      · intro h; exact absurd h (by simp)
      · omega
    · constructor
      · intro _; omega
      · intro _; rfl

theorem lexCmp_eq_iff : ∀ (s t : List ℕ), lexCmp s t = Ordering.eq ↔ s = t := by
  intro s
  induction s with
  | nil =>
    intro t
    cases t with
    | nil => simp [lexCmp]
    | cons b bs => simp [lexCmp]
  | cons a as ih =>
    intro t
    cases t with
    | nil => simp [lexCmp]
    | cons b bs =>
      rw [lexCmp]
      by_cases hab : a = b
      · subst hab
        rw [(natCmp_eq_iff a a).mpr rfl]
        rw [ih bs]
        simp
      · have : natCmp a b ≠ Ordering.eq := fun h => hab ((natCmp_eq_iff a b).mp h)
        cases hc : natCmp a b with
        | eq => exact absurd hc this
        | lt => simp [hab]
        | gt => simp [hab]

namespace Import

variable {Ident : Type} [DecidableEq Ident]

/-- `Ord::cmp` (`import/mod.rs` lines 54–62): the program domain strings
are compared first; only when the domains are equal are the program name
strings compared. -/
def cmp (str : Ident → List ℕ) (a b : Import Ident) : Ordering :=
  if a.domain = b.domain then lexCmp (str a.name) (str b.name)
  else lexCmp (str a.domain) (str b.domain)

/-- `PartialOrd::partial_cmp` (`import/mod.rs` lines 64–72), written out
with its own `match` in the source rather than delegating to `cmp`. -/
def partial_cmp (str : Ident → List ℕ) (a b : Import Ident) :
    Option Ordering :=
  if a.domain = b.domain then some (lexCmp (str a.name) (str b.name))
  else some (lexCmp (str a.domain) (str b.domain))

theorem ext_iff {a b : Import Ident} :
    a = b ↔ a.domain = b.domain ∧ a.name = b.name := by
  constructor
  · intro h; rw [h]; exact ⟨rfl, rfl⟩
  · intro ⟨h1, h2⟩
    cases a; cases b
    simp only at h1 h2
    rw [h1, h2]

end Import

end ImportOrd

/-! ## LedgerProof construction (`dpc/src/ledger/ledger_proof.rs`) -/

section Ledger

/-- The eleven fields of a `LedgerProof`, over one abstract component
type (hashes, roots, identifiers and Merkle paths all live in `α`). -/
structure LedgerProof (α : Type) where
  block_hash : α
  previous_block_hash : α
  block_header_root : α
  block_header_inclusion_proof : α
  transactions_root : α
  transactions_inclusion_proof : α
  transaction_id : α
  transaction_inclusion_proof : α
  transition_id : α
  transition_inclusion_proof : α
  commitment : α
deriving DecidableEq

/-- Modelled from the spec: Merkle inclusion-proof verification and the
block-hash CRH are out-of-scope collaborators (§1), not among the
excerpted sources, so they are abstract fallible operations:
`verify path root leaf` mirrors `MerklePath::verify(&root, &leaf)` and
`block_hash_crh prev root` mirrors hashing the concatenated bytes. -/
structure LedgerOps (α : Type) where
  verify : α → α → α → Except String Bool
  block_hash_crh : α → α → Except String α

/-- `LedgerProof::new` (`ledger_proof.rs` lines 51–124): the four Merkle
checks run in sequence, then the block hash is recomputed and compared;
the first failure aborts with an error naming the failed check, and only
when all five checks pass is a `LedgerProof` value built. -/
def LedgerProof.new {α : Type} [DecidableEq α] (ops : LedgerOps α)
    (block_hash previous_block_hash block_header_root
      block_header_inclusion_proof transactions_root
      transactions_inclusion_proof transaction_id transaction_inclusion_proof
      transition_id transition_inclusion_proof commitment : α) :
    Except String (LedgerProof α) :=
  match ops.verify transition_inclusion_proof transition_id commitment with
  | Except.error e => Except.error e
  | Except.ok false => Except.error "Commitment does not belong to transition"
  | Except.ok true =>
  match ops.verify transaction_inclusion_proof transaction_id transition_id with
  | Except.error e => Except.error e
  | Except.ok false => Except.error "Transition does not belong to transaction"
  | Except.ok true =>
  match ops.verify transactions_inclusion_proof transactions_root transaction_id with
  | Except.error e => Except.error e
  | Except.ok false => Except.error "Transaction does not belong to transactions root"
  | Except.ok true =>
  match ops.verify block_header_inclusion_proof block_header_root transactions_root with
  | Except.error e => Except.error e
  | Except.ok false => Except.error "Transactions root does not belong to block header"
  | Except.ok true =>
  match ops.block_hash_crh previous_block_hash block_header_root with
  | Except.error e => Except.error e
  | Except.ok candidate_block_hash =>
    if candidate_block_hash = block_hash then
      Except.ok ⟨block_hash, previous_block_hash, block_header_root,
        block_header_inclusion_proof, transactions_root,
        transactions_inclusion_proof, transaction_id,
        transaction_inclusion_proof, transition_id,
        transition_inclusion_proof, commitment⟩
    else Except.error "Candidate block hash does not match given block hash"

end Ledger

/-! ## Concrete instances over `ZMod 5` -/

instance : Fact (Nat.Prime 5) := ⟨by norm_num⟩

/-- The multiplicative subgroup of order 2 in `ZMod 5`: generated by
`4 = -1`, with `4⁻¹ = 4` and `2⁻¹ = 3`. -/
def D2 : EvaluationDomain (ZMod 5) := ⟨2, 4, 4, 3⟩

/-- The trivial domain of size 1 in `ZMod 5`. -/
def D1 : EvaluationDomain (ZMod 5) := ⟨1, 1, 1, 1⟩

/-- A circuit whose IFFT precomputation is the honest interpolation. -/
def honestCircuit : Circuit (ZMod 5) := ⟨0, fun v d => interpolate v d⟩

/-- A circuit whose IFFT tables are corrupted so that interpolation
returns the zero polynomial. -/
def brokenCircuit : Circuit (ZMod 5) := ⟨0, fun _ _ => []⟩

/-- One circuit, one instance, a satisfied R1CS witness:
`z_a = (1, 2)`, `z_b = (1, 3)`, `z_c = (1, 1)` over `D2`
(indeed `1·1 = 1` and `2·3 = 6 = 1` in `ZMod 5`). -/
def stateSat : ProverState (ZMod 5) :=
  ⟨D2, [(honestCircuit, ⟨D2, some [[1, 2]], some [[1, 3]], some [[1, 1]]⟩)]⟩

/-- The state after round 2 has consumed the witness columns. -/
def stateSatAfter : ProverState (ZMod 5) :=
  ⟨D2, [(honestCircuit, ⟨D2, none, none, none⟩)]⟩

/-- One circuit, one instance, with one corrupted `z_c` entry
(`2·3 = 1 ≠ 2`). -/
def stateBad : ProverState (ZMod 5) :=
  ⟨D2, [(honestCircuit, ⟨D2, some [[1, 2]], some [[1, 3]], some [[1, 2]]⟩)]⟩

/-- One circuit, two instances (the second has identically-zero
residual). -/
def stateTwo : ProverState (ZMod 5) :=
  ⟨D2, [(honestCircuit, ⟨D2, some [[1, 2], [1, 1]], some [[1, 3], [1, 1]],
    some [[1, 1], [1, 1]]⟩)]⟩

/-- Combiners: circuit combiner 1, one instance combiner 1, for circuit 0. -/
def msgOne : FirstMessage (ZMod 5) := ⟨[(0, ⟨1, [1]⟩)]⟩

/-- Combiners for two instances of circuit 0. -/
def msgTwo : FirstMessage (ZMod 5) := ⟨[(0, ⟨1, [1, 1]⟩)]⟩

/-- An empty combiner map: no entry for circuit 0. -/
def msgEmpty : FirstMessage (ZMod 5) := ⟨[]⟩

/-! ## The claims -/

/-- C1: for every valid input to round 2 (honest IFFT precomputation and
per-circuit domains no larger than the maximum domain), the polynomial
computed by `calculate_rowcheck_witness` — and hence the oracle `h_0`
returned by `prover_second_round` — has degree at most
`2 * max_constraint_domain.size() + 2 * zk_bound - 2`, `zk_bound` being
0 when zero-knowledge is disabled. -/
theorem claim1_h0_degree_bound {F : Type} [Field F] [DecidableEq F]
    (debug : Bool) (zk_bound : Option ℕ) (msg : FirstMessage F)
    (state : ProverState F)
    (hifft : ∀ p ∈ state.circuit_specific_states,
      p.1.ifft_precomputation = fun w dd => interpolate w dd)
    (hdom : ∀ p ∈ state.circuit_specific_states,
      p.2.constraint_domain.n ≤ state.max_constraint_domain.n) :
    (∀ r, calculate_rowcheck_witness debug state msg.batch_combiners =
      Outcome.ok r →
      DensePolynomial.natDegree r.1 ≤
        2 * state.max_constraint_domain.n + 2 * zk_bound.getD 0 - 2) ∧
    (∀ r, prover_second_round debug zk_bound msg state = Outcome.ok r →
      DensePolynomial.natDegree r.1.h_0.polynomial ≤
        2 * state.max_constraint_domain.n + 2 * zk_bound.getD 0 - 2) := by
  have hmain : ∀ r, calculate_rowcheck_witness debug state
      msg.batch_combiners = Outcome.ok r →
      DensePolynomial.natDegree r.1 ≤
        2 * state.max_constraint_domain.n + 2 * zk_bound.getD 0 - 2 := by
    intro r hok
    have hlen := calculate_rowcheck_witness_ok_length hifft hdom hok
    have hdeg := DensePolynomial.natDegree_le r.1
    omega
  refine ⟨hmain, fun r hok => ?_⟩
  obtain ⟨r0, h1, h2⟩ := prover_second_round_ok_inv hok
  rw [h2]
  exact hmain r0 h1

/-- Witness for C1 at the concrete satisfied one-instance input: the
oracle is the constant polynomial `3` of degree `0 ≤ 2·2 + 2·0 - 2`. -/
theorem claim1_h0_degree_bound_witness :
    DensePolynomial.natDegree ([3] : DensePolynomial (ZMod 5)) ≤
      2 * 2 + 2 * 0 - 2 :=
  (claim1_h0_degree_bound true none msgOne stateSat
    (by
      intro p hp
      rcases List.mem_singleton.mp hp with rfl
      rfl)
    (by
      intro p hp
      rcases List.mem_singleton.mp hp with rfl
      exact le_refl _)).2
    (⟨⟨"h_0", [3], none, none⟩⟩, stateSatAfter) rfl

/-- C4: for every witness value sequence of the domain's length and every
valid constraint domain, `calculate_z_m` on an honest circuit returns the
interpolated polynomial, and re-evaluating that polynomial over the same
domain reproduces the original sequence exactly, element by element. -/
theorem claim4_interpolation_round_trip {F : Type} [Field F] [DecidableEq F]
    (debug : Bool) (v : List F) (d : EvaluationDomain F) (c : Circuit F)
    (hd : d.valid) (hv : v.length = d.n)
    (hc : c.ifft_precomputation = fun w dd => interpolate w dd) :
    calculate_z_m debug v d c = Outcome.ok (interpolate v d) ∧
    evalOverDomain (interpolate v d) d = v :=
  ⟨calculate_z_m_ok hc hd hv debug, evalOverDomain_interpolate hd hv⟩

/-- Witness for C4: interpolating `(1, 2)` over `D2` gives `4 + 2·X`,
which re-evaluates to `(1, 2)`. -/
theorem claim4_interpolation_round_trip_witness :
    calculate_z_m true [1, 2] D2 honestCircuit =
      Outcome.ok (interpolate [1, 2] D2) ∧
    evalOverDomain (interpolate [1, 2] D2) D2 = [1, 2] :=
  claim4_interpolation_round_trip true [1, 2] D2 honestCircuit
    (by decide) (by decide) rfl

/-- C2 (amended): over an honest round-2 input, (a) if every instance's
computed residual `z_a·z_b − z_c` is the zero polynomial (identically,
not merely over the domain), the returned aggregate `h_0` is the zero
polynomial; (b) if some instance with a nonzero instance combiner has a
corrupted `z_c` — its values violate the rowcheck at some domain point —
and its `z_c` interpolant is no longer than the `z_a·z_b` product, then
`prover_second_round` returns the remainder error instead of producing
`h_0`.  (The original claim is refuted by
`claim2_soundness_linkage_counterexample`: a satisfied instance generally
yields a nonzero `h_0`, and a corrupted instance yields an error, not a
nonzero `h_0`.) -/
theorem claim2_soundness_linkage {F : Type} [Field F] [DecidableEq F]
    (debug : Bool) (zk_bound : Option ℕ) (msg : FirstMessage F)
    (state : ProverState F)
    (hwf : honestInput msg.batch_combiners state.circuit_specific_states) :
    ((∀ p ∈ state.circuit_specific_states, ∀ (j : ℕ) (a b cv : List F),
        (p.2.z_a.getD [])[j]? = some a → (p.2.z_b.getD [])[j]? = some b →
        (p.2.z_c.getD [])[j]? = some cv →
        DensePolynomial.isZero
          (instanceRowcheck p.1 p.2.constraint_domain a b cv) = true) →
      ∀ r, prover_second_round debug zk_bound msg state = Outcome.ok r →
        DensePolynomial.isZero r.1.h_0.polynomial = true) ∧
    (∀ p ∈ state.circuit_specific_states, ∀ (comb : BatchCombiners F)
      (j : ℕ) (ic : F) (a b cv : List F),
      lookupCombiners msg.batch_combiners p.1.id = some comb →
      comb.instance_combiners[j]? = some ic → ic ≠ 0 →
      (p.2.z_a.getD [])[j]? = some a → (p.2.z_b.getD [])[j]? = some b →
      (p.2.z_c.getD [])[j]? = some cv →
      (interpolate cv p.2.constraint_domain).length ≤
        (DensePolynomial.mul (interpolate a p.2.constraint_domain)
          (interpolate b p.2.constraint_domain)).length →
      (∃ k, k < p.2.constraint_domain.n ∧
        a.getD k 0 * b.getD k 0 ≠ cv.getD k 0) →
      prover_second_round debug zk_bound msg state =
        Outcome.err "Remainder is not zero") := by
  constructor
  · intro hzero r hok
    exact round2_ok_zero_of_zero_residuals debug zk_bound hwf hzero hok
  · intro p hp comb j ic a b cv hcomb hic hicne hja hjb hjc hlen ⟨k, hk, hne⟩
    obtain ⟨hifft, hdv, -⟩ := hwf p hp
    have heval : DensePolynomial.eval
        (DensePolynomial.smul ic
          (instanceRowcheck p.1 p.2.constraint_domain a b cv))
        (p.2.constraint_domain.group_gen ^ k) ≠ 0 := by
      rw [DensePolynomial.eval_smul,
        eval_instanceRowcheck hifft hdv a b cv hk hlen]
      exact mul_ne_zero hicne (sub_ne_zero_of_ne hne)
    have hrem := remainder_not_zero_of_eval_ne hdv hk heval
    exact round2_err_of_bad_remainder debug zk_bound hwf hp hcomb hic
      hja hjb hjc hrem

/-- Witness for C2 (amended): (a) at an input whose only instance has
identically-zero residual the oracle is the zero polynomial; (b) at the
input with one corrupted `z_c` entry round 2 reports the remainder
error. -/
theorem claim2_soundness_linkage_witness :
    DensePolynomial.isZero
      ((⟨⟨"h_0", [], none, none⟩⟩ : SecondOracles (ZMod 5)).h_0.polynomial)
        = true ∧
    prover_second_round true none msgOne stateBad =
      Outcome.err "Remainder is not zero" := by
  constructor
  · exact (claim2_soundness_linkage true none msgOne
      ⟨D2, [(honestCircuit, ⟨D2, some [[1, 1]], some [[1, 1]],
        some [[1, 1]]⟩)]⟩
      (by
        intro p hp
        rcases List.mem_singleton.mp hp with rfl
        exact ⟨rfl, by decide, by decide, rfl, rfl, rfl,
          by decide, by decide, by decide⟩)).1
      (by
        intro p hp
        rcases List.mem_singleton.mp hp with rfl
        intro j a b cv hja hjb hjc
        match j with
        | 0 =>
          simp only [Option.getD_some, List.getElem?_cons_zero,
            Option.some.injEq] at hja hjb hjc
          rw [← hja, ← hjb, ← hjc]
          decide
        | j + 1 => simp at hja)
      (⟨⟨"h_0", [], none, none⟩⟩,
        ⟨D2, [(honestCircuit, ⟨D2, none, none, none⟩)]⟩) rfl
  · exact (claim2_soundness_linkage true none msgOne stateBad
      (by
        intro p hp
        rcases List.mem_singleton.mp hp with rfl
        exact ⟨rfl, by decide, by decide, rfl, rfl, rfl,
          by decide, by decide, by decide⟩)).2
      (honestCircuit, ⟨D2, some [[1, 2]], some [[1, 3]], some [[1, 2]]⟩)
      (by simp [stateBad])
      ⟨1, [1]⟩ 0 1 [1, 2] [1, 3] [1, 2]
      rfl rfl (by decide) rfl rfl rfl (by decide)
      ⟨1, by decide, by decide⟩

/-- Counterexample to C2 as stated: in the concrete one-circuit,
one-instance input every instance satisfies its R1CS — the residual even
vanishes at every constraint-domain point — yet the returned `h_0` is the
nonzero constant polynomial `3`; so "if every instance satisfies its
R1CS then `h_0` is the zero polynomial" fails on the code. -/
theorem claim2_soundness_linkage_counterexample :
    satisfiesR1CS ([1, 2] : List (ZMod 5)) [1, 3] [1, 1] = true ∧
    evalOverDomain (instanceRowcheck honestCircuit D2 [1, 2] [1, 3] [1, 1])
      D2 = [0, 0] ∧
    (prover_second_round true none msgOne stateSat).getOk?.map
      (fun r => r.1.h_0.polynomial) = some [3] ∧
    DensePolynomial.isZero ([3] : DensePolynomial (ZMod 5)) = false := by
  refine ⟨by decide, by decide, ?_, by decide⟩
  rfl

/-- C3 (amended): for witness triples of the domain's length whose `z_c`
interpolant is no longer than the `z_a·z_b` product, the computed
rowcheck residual equals the product of the `z_a` and `z_b` interpolants
minus the `z_c` interpolant coefficient-wise, and the residual vanishes
at every constraint-domain point iff the instance satisfies its R1CS.
(The original claim — quantified over all triples including those whose
`z_c` interpolant exceeds the product's degree — is refuted by
`claim3_rowcheck_residual_counterexample`: the truncating `zip`
subtraction drops the excess `z_c` coefficients.) -/
theorem claim3_rowcheck_residual {F : Type} [Field F] [DecidableEq F]
    (c : Circuit F) (d : EvaluationDomain F)
    (hc : c.ifft_precomputation = fun w dd => interpolate w dd)
    (hd : d.valid) (za zb zc : List F)
    (ha : za.length = d.n) (hb : zb.length = d.n) (hz : zc.length = d.n)
    (hlen : (interpolate zc d).length ≤
      (DensePolynomial.mul (interpolate za d) (interpolate zb d)).length) :
    instanceRowcheck c d za zb zc =
      DensePolynomial.sub
        (DensePolynomial.mul (interpolate za d) (interpolate zb d))
        (interpolate zc d) ∧
    ((∀ k < d.n, DensePolynomial.eval (instanceRowcheck c d za zb zc)
        (d.group_gen ^ k) = 0) ↔ satisfiesR1CS za zb zc = true) := by
  have heq : instanceRowcheck c d za zb zc =
      DensePolynomial.sub
        (DensePolynomial.mul (interpolate za d) (interpolate zb d))
        (interpolate zc d) := by
    unfold instanceRowcheck
    rw [hc]
    exact subTrunc_eq_sub hlen
  refine ⟨heq, ?_⟩
  rw [satisfiesR1CS_iff (ha.trans hb.symm) (hb.trans hz.symm), ha]
  constructor
  · intro hvan k hk
    have hv := hvan k hk
    rw [eval_instanceRowcheck hc hd za zb zc hk hlen] at hv
    exact sub_eq_zero.mp hv
  · intro hall k hk
    rw [eval_instanceRowcheck hc hd za zb zc hk hlen, hall k hk, sub_self]

/-- Witness for C3 (amended) at the satisfied triple over `D2`: the
computed residual is `2 + 3·X²`, matches the coefficient-wise
difference, and vanishes over the domain as the triple satisfies R1CS. -/
theorem claim3_rowcheck_residual_witness :
    instanceRowcheck honestCircuit D2 [1, 2] [1, 3] [1, 1] =
      DensePolynomial.sub
        (DensePolynomial.mul (interpolate [1, 2] D2) (interpolate [1, 3] D2))
        (interpolate ([1, 1] : List (ZMod 5)) D2) ∧
    ((∀ k < D2.n, DensePolynomial.eval
        (instanceRowcheck honestCircuit D2 [1, 2] [1, 3] [1, 1])
        (D2.group_gen ^ k) = 0) ↔
      satisfiesR1CS ([1, 2] : List (ZMod 5)) [1, 3] [1, 1] = true) :=
  claim3_rowcheck_residual honestCircuit D2 rfl (by decide)
    [1, 2] [1, 3] [1, 1] (by decide) (by decide) (by decide) (by decide)

/-- Counterexample to C3 as stated: with `z_a = z_b = (0, 0)` and
`z_c = (1, 2)` over `D2` the `z_a·z_b` product is the zero polynomial,
so the truncating `zip` subtraction drops every `z_c` coefficient: the
computed residual is the zero polynomial, not the coefficient-wise
difference `1 + 3·X`, and it vanishes everywhere although the instance
violates its R1CS. -/
theorem claim3_rowcheck_residual_counterexample :
    instanceRowcheck honestCircuit D2 [0, 0] [0, 0] [1, 2] = [] ∧
    DensePolynomial.sub
      (DensePolynomial.mul (interpolate [0, 0] D2) (interpolate [0, 0] D2))
      (interpolate ([1, 2] : List (ZMod 5)) D2) = [1, 3] ∧
    DensePolynomial.isZero
      (instanceRowcheck honestCircuit D2 [0, 0] [0, 0] [1, 2]) = true ∧
    satisfiesR1CS ([0, 0] : List (ZMod 5)) [0, 0] [1, 2] = false := by
  decide

/-- C5 (amended): the interpolation re-evaluation check of
`calculate_z_m` is a `debug_assert!`; with debug assertions disabled the
interpolated polynomial is returned with no check at all (a mismatch is
silently tolerated), and with debug assertions enabled a mismatch causes
a panic, not an error return.  (The original claim — an explicit error in
every build configuration — is refuted by
`claim5_interpolation_check_counterexample`.) -/
theorem claim5_interpolation_check {F : Type} [Field F] [DecidableEq F]
    (evaluations : List F) (d : EvaluationDomain F) (c : Circuit F) :
    calculate_z_m false evaluations d c =
      Outcome.ok (c.ifft_precomputation evaluations d) ∧
    (interpolationChecks (c.ifft_precomputation evaluations d) d
        evaluations = false →
      calculate_z_m true evaluations d c =
        Outcome.panic "interpolation mismatch") := by
  constructor
  · unfold calculate_z_m
    simp
  · intro hm
    unfold calculate_z_m
    simp [hm]

/-- Witness for C5 (amended) at a circuit with corrupted IFFT tables:
no check in a release build, a panic in a debug build. -/
theorem claim5_interpolation_check_witness :
    calculate_z_m false [1] D1 brokenCircuit =
      Outcome.ok (brokenCircuit.ifft_precomputation [1] D1) ∧
    calculate_z_m true [1] D1 brokenCircuit =
      Outcome.panic "interpolation mismatch" :=
  ⟨(claim5_interpolation_check [1] D1 brokenCircuit).1,
   (claim5_interpolation_check [1] D1 brokenCircuit).2 (by decide)⟩

/-- Counterexample to C5 as stated: with corrupted IFFT tables the
re-evaluation comparison fails, yet with debug assertions disabled
`calculate_z_m` returns success and no error is surfaced in that build
configuration; with debug assertions enabled the failure is a panic, not
an `InterpolationMismatch` error value. -/
theorem claim5_interpolation_check_counterexample :
    interpolationChecks ([] : DensePolynomial (ZMod 5)) D1 [1] = false ∧
    calculate_z_m false [1] D1 brokenCircuit =
      Outcome.ok ([] : DensePolynomial (ZMod 5)) ∧
    (calculate_z_m false [1] D1 brokenCircuit).isErr = false ∧
    (calculate_z_m true [1] D1 brokenCircuit).isErr = false := by
  decide

/-- C6: over an honest round-2 input, when the randomized selector —
invoked as in round 2 with the expect-no-remainder flag — would produce a
nonzero remainder for some queued instance, the selector application
reports the `UnexpectedRemainder` error and `prover_second_round` returns
that reported error to its caller (an `err`, not a `panic`, and no
oracle is produced). -/
theorem claim6_unexpected_remainder {F : Type} [Field F] [DecidableEq F]
    (debug : Bool) (zk_bound : Option ℕ) (msg : FirstMessage F)
    (state : ProverState F)
    (hwf : honestInput msg.batch_combiners state.circuit_specific_states)
    (p : Circuit F × CircuitSpecificState F)
    (hp : p ∈ state.circuit_specific_states) (comb : BatchCombiners F)
    (hcomb : lookupCombiners msg.batch_combiners p.1.id = some comb)
    (j : ℕ) (ic : F) (a b cv : List F)
    (hic : comb.instance_combiners[j]? = some ic)
    (hja : (p.2.z_a.getD [])[j]? = some a)
    (hjb : (p.2.z_b.getD [])[j]? = some b)
    (hjc : (p.2.z_c.getD [])[j]? = some cv)
    (hrem : DensePolynomial.isZero (divideByVanishingPoly
      (DensePolynomial.smul ic
        (instanceRowcheck p.1 p.2.constraint_domain a b cv))
      p.2.constraint_domain.n).2 = false) :
    apply_randomized_selector
      (DensePolynomial.smul ic
        (instanceRowcheck p.1 p.2.constraint_domain a b cv))
      comb.circuit_combiner state.max_constraint_domain
      p.2.constraint_domain false = Outcome.err "Remainder is not zero" ∧
    prover_second_round debug zk_bound msg state =
      Outcome.err "Remainder is not zero" := by
  constructor
  · rw [apply_randomized_selector_false, if_neg (by simp [hrem])]
  · exact round2_err_of_bad_remainder debug zk_bound hwf hp hcomb hic
      hja hjb hjc hrem

/-- Witness for C6 at the corrupted-`z_c` input: the selector reports the
remainder error and round 2 returns it. -/
theorem claim6_unexpected_remainder_witness :
    apply_randomized_selector
      (DensePolynomial.smul (1 : ZMod 5)
        (instanceRowcheck honestCircuit D2 [1, 2] [1, 3] [1, 2]))
      1 D2 D2 false = Outcome.err "Remainder is not zero" ∧
    prover_second_round false none msgOne stateBad =
      Outcome.err "Remainder is not zero" :=
  claim6_unexpected_remainder false none msgOne stateBad
    (by
      intro p hp
      rcases List.mem_singleton.mp hp with rfl
      exact ⟨rfl, by decide, by decide, rfl, rfl, rfl,
        by decide, by decide, by decide⟩)
    (honestCircuit, ⟨D2, some [[1, 2]], some [[1, 3]], some [[1, 2]]⟩)
    (by simp [stateBad])
    ⟨1, [1]⟩ rfl 0 1 [1, 2] [1, 3] [1, 2]
    rfl rfl rfl rfl (by decide)

/-- C7 (amended): when the verifier's first message lacks a
`BatchCombiners` entry for some circuit in the prover state, or the
prover state lacks a witness column for some circuit,
`prover_second_round` panics (the `BTreeMap` index / `Option::unwrap`),
rather than returning an error value.  (The original claim — an error
return rather than a panic — is refuted by
`claim7_missing_entry_counterexample`.) -/
theorem claim7_missing_entry {F : Type} [Field F] [DecidableEq F]
    (debug : Bool) (zk_bound : Option ℕ) (msg : FirstMessage F)
    (state : ProverState F)
    (hbad : ∃ p ∈ state.circuit_specific_states,
      lookupCombiners msg.batch_combiners p.1.id = none ∨
      p.2.z_a = none ∨ p.2.z_b = none ∨ p.2.z_c = none) :
    ∃ m, prover_second_round debug zk_bound msg state = Outcome.panic m := by
  obtain ⟨m, hm⟩ := buildJobs_panic_of_missing debug
    state.max_constraint_domain msg.batch_combiners
    state.circuit_specific_states hbad
  exact ⟨m, prover_second_round_panic (calculate_rowcheck_witness_panic hm)⟩

/-- Witness for C7 (amended) at the empty combiner map: round 2 panics. -/
theorem claim7_missing_entry_witness :
    ∃ m, prover_second_round true none msgEmpty stateSat =
      Outcome.panic m :=
  claim7_missing_entry true none msgEmpty stateSat
    ⟨(honestCircuit, ⟨D2, some [[1, 2]], some [[1, 3]], some [[1, 1]]⟩),
      by simp [stateSat], Or.inl rfl⟩

/-- Counterexample to C7 as stated: with a circuit present in the prover
state but absent from the combiner map, `prover_second_round` panics and
does not return an error value. -/
theorem claim7_missing_entry_counterexample :
    lookupCombiners msgEmpty.batch_combiners honestCircuit.id = none ∧
    (prover_second_round true none msgEmpty stateSat).isPanic = true ∧
    (prover_second_round true none msgEmpty stateSat).isErr = false := by
  refine ⟨rfl, rfl, rfl⟩

/-- C8: for a fixed round-2 input whose jobs all produced polynomials,
every permutation of the order in which the per-instance job results are
combined by the reduction (polynomial addition starting from the zero
polynomial) yields the identical aggregate polynomial, coefficient for
coefficient. -/
theorem claim8_reduction_order {F : Type} [Field F] [DecidableEq F]
    (debug : Bool) (state : ProverState F)
    (bc : List (ℕ × BatchCombiners F)) (ps ps1 : List (DensePolynomial F))
    (hjobs : buildJobs debug state.max_constraint_domain bc
      state.circuit_specific_states = Outcome.ok (ps.map Outcome.ok))
    (hperm : ps.Perm ps1) :
    reduceJobs (ps1.map Outcome.ok) = reduceJobs (ps.map Outcome.ok) := by
  rw [reduceJobs_map_ok, reduceJobs_map_ok, sumPolys_perm hperm]

/-- Witness for C8: the two-instance input yields the job results
`[3]` and `[]`; reducing them in either order gives the same polynomial. -/
theorem claim8_reduction_order_witness :
    reduceJobs (([[], [3]] : List (DensePolynomial (ZMod 5))).map
      Outcome.ok) =
    reduceJobs (([[3], []] : List (DensePolynomial (ZMod 5))).map
      Outcome.ok) :=
  claim8_reduction_order true stateTwo msgTwo.batch_combiners
    [[3], []] [[], [3]] rfl (by decide)

/-- C9: `partial_cmp` always returns `some` of what `cmp` returns, the
ordering compares the domain strings first and the name strings only for
equal domains (the definitions of `Import.cmp` and `Import.partial_cmp`),
and — when the identifier-to-string map is injective, as for canonical
identifiers — `Ordering.eq` is returned exactly for imports with equal
domain and equal name, so `Ord`, `PartialOrd` and `Eq` agree. -/
theorem claim9_import_ordering {Ident : Type} [DecidableEq Ident]
    (str : Ident → List ℕ) (a b : Import Ident) :
    Import.partial_cmp str a b = some (Import.cmp str a b) ∧
    (Function.Injective str →
      (Import.cmp str a b = Ordering.eq ↔ a = b)) := by
  constructor
  · unfold Import.partial_cmp Import.cmp
    split <;> rfl
  · intro hinj
    unfold Import.cmp
    split
    · next hdom =>
      rw [lexCmp_eq_iff]
      constructor
      · intro h
        exact Import.ext_iff.mpr ⟨hdom, hinj h⟩
      · intro h
        rw [(Import.ext_iff.mp h).2]
    · next hdom =>
      rw [lexCmp_eq_iff]
      constructor
      · intro h
        exact absurd (hinj h) hdom
      · intro h
        exact absurd (Import.ext_iff.mp h).1 hdom

/-- Witness for C9 with identifiers that are their own strings:
`bar.aleo` versus `foo.aleo` in byte form. -/
theorem claim9_import_ordering_witness :
    Import.partial_cmp (fun s => s) (⟨[2], [1]⟩ : Import (List ℕ))
        ⟨[3], [1]⟩ =
      some (Import.cmp (fun s => s) ⟨[2], [1]⟩ ⟨[3], [1]⟩) ∧
    (Import.cmp (fun s => s) (⟨[2], [1]⟩ : Import (List ℕ)) ⟨[3], [1]⟩ =
      Ordering.eq ↔ (⟨[2], [1]⟩ : Import (List ℕ)) = ⟨[3], [1]⟩) :=
  ⟨(claim9_import_ordering (fun s => s) ⟨[2], [1]⟩ ⟨[3], [1]⟩).1,
   (claim9_import_ordering (fun s => s) ⟨[2], [1]⟩ ⟨[3], [1]⟩).2
     (fun _ _ h => h)⟩

/-- C10: `LedgerProof::new` returns `Ok` iff the four Merkle inclusion
proofs verify in sequence and the recomputed block hash equals the given
one — and then the constructed value holds exactly the given fields, so
every constructed `LedgerProof` satisfies all five checks; on the first
failing check it returns `Err` carrying that check's message. -/
theorem claim10_ledger_proof_new {α : Type} [DecidableEq α]
    (ops : LedgerOps α)
    (bh pbh bhr bhip txr txsp txid txp trid trp cm : α) :
    (∀ pf, LedgerProof.new ops bh pbh bhr bhip txr txsp txid txp trid trp cm
        = Except.ok pf ↔
      (ops.verify trp trid cm = Except.ok true ∧
       ops.verify txp txid trid = Except.ok true ∧
       ops.verify txsp txr txid = Except.ok true ∧
       ops.verify bhip bhr txr = Except.ok true ∧
       ops.block_hash_crh pbh bhr = Except.ok bh ∧
       pf = ⟨bh, pbh, bhr, bhip, txr, txsp, txid, txp, trid, trp, cm⟩)) ∧
    (ops.verify trp trid cm = Except.ok false →
      LedgerProof.new ops bh pbh bhr bhip txr txsp txid txp trid trp cm =
        Except.error "Commitment does not belong to transition") ∧
    (ops.verify trp trid cm = Except.ok true →
      ops.verify txp txid trid = Except.ok false →
      LedgerProof.new ops bh pbh bhr bhip txr txsp txid txp trid trp cm =
        Except.error "Transition does not belong to transaction") ∧
    (ops.verify trp trid cm = Except.ok true →
      ops.verify txp txid trid = Except.ok true →
      ops.verify txsp txr txid = Except.ok false →
      LedgerProof.new ops bh pbh bhr bhip txr txsp txid txp trid trp cm =
        Except.error "Transaction does not belong to transactions root") ∧
    (ops.verify trp trid cm = Except.ok true →
      ops.verify txp txid trid = Except.ok true →
      ops.verify txsp txr txid = Except.ok true →
      ops.verify bhip bhr txr = Except.ok false →
      LedgerProof.new ops bh pbh bhr bhip txr txsp txid txp trid trp cm =
        Except.error "Transactions root does not belong to block header") ∧
    (ops.verify trp trid cm = Except.ok true →
      ops.verify txp txid trid = Except.ok true →
      ops.verify txsp txr txid = Except.ok true →
      ops.verify bhip bhr txr = Except.ok true →
      ∀ cand, ops.block_hash_crh pbh bhr = Except.ok cand → cand ≠ bh →
      LedgerProof.new ops bh pbh bhr bhip txr txsp txid txp trid trp cm =
        Except.error "Candidate block hash does not match given block hash") := by
  refine ⟨?_, ?_, ?_, ?_, ?_, ?_⟩
  · intro pf
    unfold LedgerProof.new
    cases h1 : ops.verify trp trid cm with
    | error e => simp [h1]
    | ok b1 =>
      cases b1 with
      | false => simp
      | true =>
        cases h2 : ops.verify txp txid trid with
        | error e => simp [h2]
        | ok b2 =>
          cases b2 with
          | false => simp
          | true =>
            cases h3 : ops.verify txsp txr txid with
            | error e => simp [h3]
            | ok b3 =>
              cases b3 with
              | false => simp
              | true =>
                cases h4 : ops.verify bhip bhr txr with
                | error e => simp [h4]
                | ok b4 =>
                  cases b4 with
                  | false => simp
                  | true =>
                    cases h5 : ops.block_hash_crh pbh bhr with
                    | error e => simp [h5]
                    | ok cand =>
                      by_cases hc : cand = bh
                      · subst hc
                        simp [eq_comm]
                      · simp [hc, Ne.symm hc]
  · intro h1
    unfold LedgerProof.new
    rw [h1]
  · intro h1 h2
    unfold LedgerProof.new
    rw [h1, h2]
  · intro h1 h2 h3
    unfold LedgerProof.new
    rw [h1, h2, h3]
  · intro h1 h2 h3 h4
    unfold LedgerProof.new
    rw [h1, h2, h3, h4]
  · intro h1 h2 h3 h4 cand h5 hne
    unfold LedgerProof.new
    rw [h1, h2, h3, h4, h5]
    simp [hne]

/-- Concrete operations for the C10 witness: a path verifies a
(root, leaf) pair when it equals their sum, and the CRH is addition. -/
def ledgerOpsW : LedgerOps ℕ :=
  ⟨fun pth root leaf => Except.ok (decide (pth = root + leaf)),
   fun prev root => Except.ok (prev + root)⟩

/-- Witness for C10: a fully consistent instance constructs the proof. -/
theorem claim10_ledger_proof_new_witness :
    LedgerProof.new ledgerOpsW 17 10 7 12 5 9 4 6 2 3 1 =
      Except.ok ⟨17, 10, 7, 12, 5, 9, 4, 6, 2, 3, 1⟩ :=
  ((claim10_ledger_proof_new ledgerOpsW 17 10 7 12 5 9 4 6 2 3 1).1 _).mpr
    ⟨rfl, rfl, rfl, rfl, rfl, rfl⟩
